import Mathlib

/-!
# Verification of the `datalookup` filtering engine

A shallow embedding of the `datalookup` library (files `datalookup/__init__.py`,
`datalookup/fields.py`, `datalookup/lookup.py`, `datalookup/utils.py`) in Lean 4,
together with proofs and refutations of the specification claims about it.

Modelling conventions:
* Python primitive values (str / int / bool / None) become `Prim`; decoded JSON
  trees become `JValue`; values supplied as filter keyword arguments become
  `FilterVal` (primitives and nested lists; `Dataset`-valued filter arguments,
  which no claim exercises, are not representable).
* A Python `Field` object becomes the inductive `Field`; a `Node` becomes
  `Node` (its `OrderedDict` of fields is a list of fields, each carrying its
  name, since `_populate` always stores a field under its own name).
* Python in-place mutation (the cascade `setattr`) is modelled by explicit
  state passing: `nodeFilter` returns the post-call node together with the
  raised exception, if any.
* Python's `set` iteration order is not specified; `getFilters` models the
  valid-path set as the first-occurrence deduplication of the traversal order.
  This only influences which of several tied candidates `max` returns in
  `getMatchFilter`, a tie the specification itself declares implementation
  defined.
-/

namespace Datalookup

/-- Python scalar values: `str`, `int`, `bool`, `None`. -/
inductive Prim where
  | str (s : List Char)
  | int (n : Int)
  | bool (b : Bool)
  | null
deriving DecidableEq

/-- Python `==` on scalars: `bool` is an `int` subtype, so `True == 1`. -/
def primEq : Prim → Prim → Bool
  | .str a, .str b => a == b
  | .int a, .int b => a == b
  | .bool a, .bool b => a == b
  | .null, .null => true
  | .int a, .bool b => a == (if b then 1 else 0)
  | .bool a, .int b => (if a then 1 else 0) == b
  | _, _ => false

/-- A decoded JSON-like input tree: primitives, sequences and mappings. -/
inductive JValue where
  | prim (p : Prim)
  | arr (xs : List JValue)
  | obj (kvs : List (List Char × JValue))

/-- A value supplied as a filter keyword argument. -/
inductive FilterVal where
  | prim (p : Prim)
  | list (xs : List FilterVal)

mutual
/-- `datalookup.fields.Field` and its four concrete variants
(`ValueField`, `ArrayField`, `NodeField`, `DatasetField`), each carrying
its `protected_name__` and its serialized value. -/
inductive Field where
  | valueF (name : List Char) (v : Prim)
  | arrayF (name : List Char) (elems : List Field)
  | nodeF (name : List Char) (child : Node)
  | datasetF (name : List Char) (nodes : List Node)

/-- `datalookup.Node`: the cascade flag and the ordered field mapping. -/
inductive Node where
  | mk (onCascade : Bool) (fields : List Field)
end

/-- `Field.get_name`. -/
def Field.getName : Field → List Char
  | .valueF n _ => n
  | .arrayF n _ => n
  | .nodeF n _ => n
  | .datasetF n _ => n

/-- The field list of a node. -/
def Node.fields : Node → List Field
  | .mk _ fs => fs

/-- The cascade flag of a node. -/
def Node.onCascade : Node → Bool
  | .mk c _ => c

/-- `getattr(field, "related_node", [])`: the records reachable directly
through a field (`NodeField.related_node`, `DatasetField.related_node`). -/
def Field.relatedNodes : Field → List Node
  | .nodeF _ c => [c]
  | .datasetF _ ns => ns
  | _ => []

/-! ## String algorithms

Python string primitives used by the library, modelled over `List Char`
(Lean's `String` operations do not reduce in the kernel). -/

/-- Strings as character lists. -/
abbrev Str := List Char

/-- `LOOKUP_SEP = "__"`. -/
def sepS : Str := ['_', '_']

/-- Index of the first occurrence of `pat` in `s` (`str.find`). -/
def findS (s pat : Str) : Option Nat :=
  ((List.range (s.length + 1)).filter (fun i => pat.isPrefixOf (s.drop i))).head?

/-- Index of the last occurrence of `pat` in `s` (`str.rfind`). -/
def rfindS (s pat : Str) : Option Nat :=
  ((List.range (s.length + 1)).filter (fun i => pat.isPrefixOf (s.drop i))).getLast?

/-- `str.rpartition(sep)`: split around the last occurrence of `sep`;
when `sep` does not occur the result is `("", "", s)`. -/
def rpartitionS (s sep : Str) : Str × Str × Str :=
  match rfindS s sep with
  | none => ([], [], s)
  | some i => (s.take i, sep, s.drop (i + sep.length))

/-- `str.replace(pat, "", 1)`: remove the first occurrence of `pat`. -/
def replaceFirstS (s pat : Str) : Str :=
  match findS s pat with
  | none => s
  | some i => s.take i ++ s.drop (i + pat.length)

theorem findS_some {s pat : Str} {i : Nat} (h : findS s pat = some i) :
    pat.isPrefixOf (s.drop i) = true := by
  unfold findS at h
  have hm := @List.mem_of_mem_head? _ ((List.range (s.length + 1)).filter
      (fun i => pat.isPrefixOf (s.drop i))) i (by rw [h]; exact rfl)
  exact (List.mem_filter.mp hm).2

theorem findS_some_nonempty {s pat : Str} {i : Nat} (h : findS s pat = some i)
    (hp : pat ≠ []) : s.drop i ≠ [] := by
  intro hnil
  have hpre := findS_some h
  rw [hnil] at hpre
  obtain ⟨t, ht⟩ := List.isPrefixOf_iff_prefix.mp hpre
  exact hp (List.append_eq_nil.mp ht).1

/-- Worker for `splitOnS`: scan left to right; `skip` counts separator
characters still to be consumed after a match, `acc` holds the current part
reversed. -/
def splitOnAux (sep : Str) : Str → Nat → Str → List Str
  | [], _, acc => [acc.reverse]
  | _ :: rest, skip + 1, acc => splitOnAux sep rest skip acc
  | c :: rest, 0, acc =>
    if sep.isPrefixOf (c :: rest) then
      acc.reverse :: splitOnAux sep rest (sep.length - 1) []
    else
      splitOnAux sep rest 0 (c :: acc)

/-- `str.split(sep)` (Python semantics for a non-empty separator: empty
parts are kept; the library never splits on an empty separator). -/
def splitOnS (sep s : Str) : List Str := splitOnAux sep s 0 []

/-- Number of `LOOKUP_SEP`-separated segments of a path
(`len(filter.split(LOOKUP_SEP))`). -/
def segCount (f : Str) : Nat := (splitOnS sepS f).length

/-- `str.strip(LOOKUP_SEP)`: strip leading and trailing underscore
characters (Python strips every character of the given set). -/
def stripUS (s : Str) : Str :=
  ((s.dropWhile (· == '_')).reverse.dropWhile (· == '_')).reverse

/-- `"__" in name`. -/
def containsSep (name : Str) : Bool := (findS name sepS).isSome

/-- Lexicographic comparison of strings by character code (Python `<`). -/
def strLtS : Str → Str → Bool
  | [], [] => false
  | [], _ :: _ => true
  | _ :: _, [] => false
  | a :: as', b :: bs => if a.val < b.val then true
      else if b.val < a.val then false else strLtS as' bs

/-- `str.lower()` (ASCII case folding; the case-insensitive predicates are
not exercised by any claim). -/
def strLowerS (s : Str) : Str := s.map Char.toLower

/-- `sub in s` for strings: Python substring membership. -/
def substrS (s sub : Str) : Bool := (findS s sub).isSome

/-! ## Values, fields and errors -/

/-- `Field.get_value()`: the stored (serialized) value of each variant. -/
inductive FieldVal where
  | prim (p : Prim)
  | elems (fs : List Field)
  | node (n : Node)
  | nodes (ns : List Node)

/-- `Field.get_value`. -/
def Field.getValue : Field → FieldVal
  | .valueF _ v => .prim v
  | .arrayF _ es => .elems es
  | .nodeF _ c => .node c
  | .datasetF _ ns => .nodes ns

/-- The concrete Python class of a field, which selects its lookup registry. -/
inductive FieldKind where
  | valueK | arrayK | nodeK | datasetK
deriving DecidableEq

/-- The concrete class of a field. -/
def Field.kind : Field → FieldKind
  | .valueF _ _ => .valueK
  | .arrayF _ _ => .arrayK
  | .nodeF _ _ => .nodeK
  | .datasetF _ _ => .datasetK

/-- The exceptions a filter call can raise:
`FilterDoesNotExist`, the `LookupError` of `Node.get_lookup`, `TypeError`,
`AttributeError`, `ObjectNotFound`, `FieldNotFound`, the `ValueError` of
`max()` on an empty sequence (and of `rpartition` on an empty separator),
and `IndexError` from subscripting.  `fuelOut` is a modelling artifact: the
explicit recursion budget of `nodeFilterF` ran out, which never happens
through the fuel-free wrappers. -/
inductive FErr where
  | filterDoesNotExist (key : Str)
  | lookupNotFound (name : Str)
  | typeError
  | attributeError
  | objectNotFound
  | fieldNotFound (name : Str)
  | valueError
  | indexError
  | fuelOut
deriving DecidableEq

/-! ## The predicate ("lookup") registry and semantics (`datalookup/lookup.py`) -/

/-- The concrete `Lookup` classes registered by `lookup.py`. -/
inductive LookupId where
  | exact | iexact | regex | iregex | inQ | range | isnull
  | gt | gte | lt | lte
  | contains | icontains | startswith | istartswith | endswith | iendswith
  | arrayContains | arrayContainedBy | arrayOverlap | arrayLength | arrayIn
  | datasetIn
deriving DecidableEq

/-- The lookups registered on the base `Field` class
(`@Field.register_lookup` in `lookup.py`), keyed by `lookup_name`. -/
def lookupBase (name : Str) : Option LookupId :=
  if name == "exact".data then some .exact
  else if name == "iexact".data then some .iexact
  else if name == "regex".data then some .regex
  else if name == "iregex".data then some .iregex
  else if name == "in".data then some .inQ
  else if name == "range".data then some .range
  else if name == "isnull".data then some .isnull
  else if name == "gt".data then some .gt
  else if name == "gte".data then some .gte
  else if name == "lt".data then some .lt
  else if name == "lte".data then some .lte
  else if name == "contains".data then some .contains
  else if name == "icontains".data then some .icontains
  else if name == "startswith".data then some .startswith
  else if name == "istartswith".data then some .istartswith
  else if name == "endswith".data then some .endswith
  else if name == "iendswith".data then some .iendswith
  else none

/-- `RegisterLookupMixin.get_lookup`: the inheritance-merged registry of each
concrete field class; the class's own registrations shadow the base ones
(`ArrayField` re-binds `contains`/`in` and adds `contained_by`, `overlap`,
`len`; `DatasetField` re-binds `in`). -/
def resolveLookup (k : FieldKind) (name : Str) : Option LookupId :=
  match k with
  | .arrayK =>
    if name == "contains".data then some .arrayContains
    else if name == "contained_by".data then some .arrayContainedBy
    else if name == "overlap".data then some .arrayOverlap
    else if name == "len".data then some .arrayLength
    else if name == "in".data then some .arrayIn
    else lookupBase name
  | .datasetK =>
    if name == "in".data then some .datasetIn else lookupBase name
  | _ => lookupBase name

/-- Python `bool` as `int`. -/
def pint (b : Bool) : Int := if b then 1 else 0

/-- Python `==` between a stored field value and a filter value.
A list of `Field` objects (an `ArrayField` value) is `==` to a plain list
only when both are empty, since `Field.__eq__` with a non-`Field` is false
elementwise; `Node`/`Dataset` values are never `==` to a representable
filter value. -/
def pyEqFV : FieldVal → FilterVal → Bool
  | .prim a, .prim b => primEq a b
  | .elems fs, .list xs => fs.isEmpty && xs.isEmpty
  | _, _ => false

/-- Python `==` between a filter value and a stored field value. -/
def pyEqVF : FilterVal → FieldVal → Bool
  | .prim a, .prim b => primEq b a
  | .list xs, .elems fs => xs.isEmpty && fs.isEmpty
  | _, _ => false

/-- Python comparison of a field value against a filter value; `none` models
the `TypeError` raised on unorderable operand types. -/
def pyCmp : FieldVal → FilterVal → Option Ordering
  | .prim (.int a), .prim (.int b) => some (compare a b)
  | .prim (.int a), .prim (.bool b) => some (compare a (pint b))
  | .prim (.bool a), .prim (.int b) => some (compare (pint a) b)
  | .prim (.bool a), .prim (.bool b) => some (compare (pint a) (pint b))
  | .prim (.str a), .prim (.str b) =>
    some (if strLtS a b then .lt else if strLtS b a then .gt else .eq)
  | _, _ => none

/-- Python `field_value in filter_value` (the `in` lookup body): list
membership by `==`, string membership as substring, anything else a
`TypeError`. -/
def pyMemFV (x : FieldVal) (y : FilterVal) : Except FErr Bool :=
  match y with
  | .list ys => .ok (ys.any (fun e => pyEqFV x e))
  | .prim (.str s) =>
    match x with
    | .prim (.str xs) => .ok (substrS s xs)
    | _ => .error .typeError
  | .prim _ => .error .typeError

/-- `ArrayLookup.prepare_filter_value`: wrap a bare string into a
one-element list. -/
def arrayPrepare (v : FilterVal) : FilterVal :=
  match v with
  | .prim (.str s) => .list [.prim (.str s)]
  | v => v

/-- The string content of a scalar string value, if any. -/
def strOf : FieldVal → Option Str
  | .prim (.str s) => some s
  | _ => none

/-- The string content of a string filter value, if any. -/
def strOfF : FilterVal → Option Str
  | .prim (.str s) => some s
  | _ => none

/-- `Range.is_matching`: `field_value in range(filter_value[0],
filter_value[1])`.  Subscripting a non-sequence is a `TypeError`, a too-short
sequence an `IndexError`, non-integer bounds a `TypeError`; membership of a
non-integer in a `range` is plain `False`. -/
def rangeEval (x : FieldVal) (fv : FilterVal) : Except FErr Bool :=
  match fv with
  | .list (a :: b :: _) =>
    match a, b with
    | .prim (.int lo), .prim (.int hi) =>
      match x with
      | .prim (.int v) => .ok (decide (lo ≤ v) && decide (v < hi))
      | .prim (.bool vb) => .ok (decide (lo ≤ pint vb) && decide (pint vb < hi))
      | _ => .ok false
    | .prim (.bool lb), .prim (.int hi) =>
      match x with
      | .prim (.int v) => .ok (decide (pint lb ≤ v) && decide (v < hi))
      | .prim (.bool vb) => .ok (decide (pint lb ≤ pint vb) && decide (pint vb < hi))
      | _ => .ok false
    | .prim (.int lo), .prim (.bool hb) =>
      match x with
      | .prim (.int v) => .ok (decide (lo ≤ v) && decide (v < pint hb))
      | .prim (.bool vb) => .ok (decide (lo ≤ pint vb) && decide (pint vb < pint hb))
      | _ => .ok false
    | .prim (.bool lb), .prim (.bool hb) =>
      match x with
      | .prim (.int v) => .ok (decide (pint lb ≤ v) && decide (v < pint hb))
      | .prim (.bool vb) => .ok (decide (pint lb ≤ pint vb) && decide (pint vb < pint hb))
      | _ => .ok false
    | _, _ => .error .typeError
  | .list _ => .error .indexError
  | .prim (.str (_ :: _ :: _)) => .error .typeError
  | .prim (.str _) => .error .indexError
  | .prim _ => .error .typeError

/-- The stored list of an `ArrayField`, unwrapped element-wise
(`ArrayLookup.prepare_field_value`); on any other variant the list
comprehension fails (`AttributeError`/`TypeError`). -/
def getArrayVals (fld : Field) : Except FErr (List FieldVal) :=
  match fld with
  | .arrayF _ es => .ok (es.map Field.getValue)
  | _ => .error .attributeError

/-- `Lookup(field.get_value(), filter_value).resolve()`: run the two
`prepare` hooks (filter value first, as in `Lookup.__init__`), check the
declared `filter_types`, then evaluate `is_matching`; the `Except` models
the Python exceptions in their raising order.  `regex`/`iregex` patterns are
modelled as literal strings, for which `re.match` is an anchored prefix
test. -/
def runLookup (lk : LookupId) (fld : Field) (fv : FilterVal) : Except FErr Bool :=
  let x := fld.getValue
  match lk with
  | .exact => .ok (pyEqFV x fv)
  | .iexact =>
    match strOfF fv with
    | none => .error .attributeError
    | some p =>
      match strOf x with
      | none => .error .attributeError
      | some s => .ok (strLowerS s == strLowerS p)
  | .regex =>
    match strOfF fv with
    | none => .error .typeError
    | some p =>
      match strOf x with
      | none => .error .typeError
      | some s => .ok (p.isPrefixOf s)
  | .iregex =>
    match strOf x with
    | none => .error .attributeError
    | some s =>
      match strOfF fv with
      | none => .error .typeError
      | some p => .ok (p.isPrefixOf (strLowerS s))
  | .inQ => pyMemFV x fv
  | .range => rangeEval x fv
  | .isnull =>
    match fv with
    | .prim (.bool b) =>
      .ok (if b then (match x with | .prim .null => true | _ => false)
           else (match x with | .prim .null => false | _ => true))
    | _ => .error .typeError
  | .gt =>
    match pyCmp x fv with
    | some o => .ok (o == .gt)
    | none => .error .typeError
  | .gte =>
    match pyCmp x fv with
    | some o => .ok (o == .gt || o == .eq)
    | none => .error .typeError
  | .lt =>
    match pyCmp x fv with
    | some o => .ok (o == .lt)
    | none => .error .typeError
  | .lte =>
    match pyCmp x fv with
    | some o => .ok (o == .lt || o == .eq)
    | none => .error .typeError
  | .contains =>
    match strOf x with
    | none => .error .attributeError
    | some s =>
      match strOfF fv with
      | none => .error .typeError
      | some p => .ok (substrS s p)
  | .icontains =>
    match strOfF fv with
    | none => .error .attributeError
    | some p =>
      match strOf x with
      | none => .error .attributeError
      | some s => .ok (substrS (strLowerS s) (strLowerS p))
  | .startswith =>
    match strOf x with
    | none => .error .attributeError
    | some s =>
      match strOfF fv with
      | none => .error .typeError
      | some p => .ok (p.isPrefixOf s)
  | .istartswith =>
    match strOfF fv with
    | none => .error .attributeError
    | some p =>
      match strOf x with
      | none => .error .attributeError
      | some s => .ok ((strLowerS p).isPrefixOf (strLowerS s))
  | .endswith =>
    match strOf x with
    | none => .error .attributeError
    | some s =>
      match strOfF fv with
      | none => .error .typeError
      | some p => .ok (p.isSuffixOf s)
  | .iendswith =>
    match strOfF fv with
    | none => .error .attributeError
    | some p =>
      match strOf x with
      | none => .error .attributeError
      | some s => .ok ((strLowerS p).isSuffixOf (strLowerS s))
  | .arrayContains =>
    match getArrayVals fld with
    | .error e => .error e
    | .ok vals =>
      match arrayPrepare fv with
      | .list ys => .ok (ys.all (fun y => vals.any (fun v => pyEqVF y v)))
      | .prim _ => .error .typeError
  | .arrayContainedBy =>
    match getArrayVals fld with
    | .error e => .error e
    | .ok vals =>
      match arrayPrepare fv with
      | .list ys => .ok (vals.all (fun v => ys.any (fun y => pyEqFV v y)))
      | .prim _ => .error .typeError
  | .arrayOverlap =>
    match getArrayVals fld with
    | .error e => .error e
    | .ok vals =>
      match arrayPrepare fv with
      | .list ys => .ok (ys.any (fun y => vals.any (fun v => pyEqVF y v)))
      | .prim _ => .error .typeError
  | .arrayLength =>
    match getArrayVals fld with
    | .error e => .error e
    | .ok vals =>
      match arrayPrepare fv with
      | .prim (.int k) => .ok ((vals.length : Int) == k)
      | .prim (.bool b) => .ok ((vals.length : Int) == pint b)
      | _ => .error .typeError
  | .arrayIn =>
    match getArrayVals fld with
    | .error e => .error e
    | .ok vals =>
      match arrayPrepare fv with
      | .list ys => .ok (vals.any (fun v => ys.any (fun y => pyEqFV v y)))
      | .prim _ => .error .typeError
  | .datasetIn =>
    match fv with
    | .list _ => .ok false
    | .prim _ => .error .typeError

/-! ## The path resolver (`get_filters`, `get_match_filter`,
`get_lookup_name`, `_parser_filters`) -/

mutual
/-- The valid paths contributed by one field: its own name, and for a
related field every child path with the field name and separator
prepended (`Node.get_node_filters`). -/
def fieldFiltersRaw : Field → List Str
  | .valueF n _ => [n]
  | .arrayF n _ => [n]
  | .nodeF n c => n :: (nodeFiltersRaw c).map (fun s => n ++ sepS ++ s)
  | .datasetF n ns => n :: nodesFiltersRaw n ns

/-- Paths contributed by the records of a collection field. -/
def nodesFiltersRaw : Str → List Node → List Str
  | _, [] => []
  | n, c :: rest => (nodeFiltersRaw c).map (fun s => n ++ sepS ++ s) ++ nodesFiltersRaw n rest

/-- Paths of all fields of a node, in field order. -/
def fieldsFiltersRaw : List Field → List Str
  | [] => []
  | f :: rest => fieldFiltersRaw f ++ fieldsFiltersRaw rest

/-- Traversal underlying `Node.get_filters`. -/
def nodeFiltersRaw : Node → List Str
  | .mk _ fs => fieldsFiltersRaw fs
end

/-- `Node.get_filters`: the set of valid paths of a record.  Python builds a
`set`, whose iteration order is unspecified; we model it as the traversal
order with duplicates removed, which fixes only the tie-break order of
`getMatchFilter`. -/
def getFilters (n : Node) : List Str := (nodeFiltersRaw n).eraseDups

/-- `Node.get_match_filter`: keep the filters whose last occurrence in the
raw key sits at position 0 (the `rpartition` conditions), then take the one
with the most separator segments (`max` over the partition dict; the first
maximum in iteration order wins).  `none` models the uncaught `ValueError`:
from `max()` when no filter matched, or from `rpartition` on an
empty-string filter. -/
def getMatchFilter (filters : List Str) (param : Str) : Option Str :=
  if filters.any (fun f => f.isEmpty) then none
  else
    match filters.filter (fun f =>
        let r := rpartitionS param f
        !(r.2.1.isEmpty) && r.1.isEmpty) with
    | [] => none
    | c :: cs => some (cs.foldl (fun best y =>
        if segCount best < segCount y then y else best) c)

/-- `Node.get_lookup_name`: the residue of the raw key after the matched
filter, stripped of underscores, defaulting to `exact`. -/
def getLookupName (param filt : Str) : Str :=
  let rest := (rpartitionS param filt).2.2
  if rest.isEmpty then "exact".data else stripUS rest

/-- The `Filter` dataclass: value, field name, lookup name. -/
structure Filter where
  value : FilterVal
  fieldName : Str
  lookupName : Str

/-- Filter keyword arguments, in keyword order. -/
abbrev Kwargs := List (Str × FilterVal)

/-- The `next_filters` grouping: per parent field, the residual keyword
arguments (`defaultdict(dict)`, insertion ordered). -/
abbrev Groups := List (Str × Kwargs)

/-- `dict.update` on one group: replace the value of an existing key or
append the pair. -/
def upsertKV (kvs : Kwargs) (key : Str) (v : FilterVal) : Kwargs :=
  match kvs with
  | [] => [(key, v)]
  | (k, w) :: rest =>
    if k == key then (k, v) :: rest else (k, w) :: upsertKV rest key v

/-- `next_filters[parent_node].update({new_param: value})`. -/
def upsertGroup (gs : Groups) (parent : Str) (key : Str) (v : FilterVal) : Groups :=
  match gs with
  | [] => [(parent, [(key, v)])]
  | (p, kvs) :: rest =>
    if p == parent then (p, upsertKV kvs key v) :: rest
    else (p, kvs) :: upsertGroup rest parent key v

/-- The loop body of `Node._parser_filters` over the keyword list. -/
def parserGo (filters : List Str) : Kwargs → List Filter → Groups →
    Option (List Filter × Groups)
  | [], cur, nxt => some (cur, nxt)
  | (param, value) :: rest, cur, nxt =>
    match getMatchFilter filters param with
    | none => none
    | some filt =>
      let segs := splitOnS sepS filt
      if segs.length == 1 then
        parserGo filters rest
          (cur ++ [⟨value, segs.headD [], getLookupName param filt⟩]) nxt
      else
        let parent := segs.headD []
        let newParam := replaceFirstS param (parent ++ sepS)
        parserGo filters rest cur (upsertGroup nxt parent newParam value)

/-- `Node._parser_filters`: split the keyword arguments into the record's
own filters and the grouped residual filters of its related fields; `none`
models the uncaught `ValueError` of `get_match_filter`. -/
def parserFilters (n : Node) (kwargs : Kwargs) : Option (List Filter × Groups) :=
  parserGo (getFilters n) kwargs [] []

/-! ## `Node.filter` -/

/-- The validation loop at the head of `Node.filter`: the first keyword key
that no valid path is a prefix of (`key.startswith(f)` for no `f`). -/
def firstInvalidKey (filters : List Str) (keys : List Str) : Option Str :=
  keys.find? (fun k => !(filters.any (fun f => f.isPrefixOf k)))

/-- `Node.get_field`: the first field with the given name (`FieldNotFound`
is raised by the caller when `none`). -/
def getField (n : Node) (name : Str) : Option Field :=
  n.fields.find? (fun f => f.getName == name)

/-- Replace the first field carrying the given name (the in-place
`setattr(field, field.get_name(), data)` seen as a node update). -/
def setFieldList (fs : List Field) (name : Str) (new : Field) : List Field :=
  match fs with
  | [] => []
  | f :: rest =>
    if f.getName == name then new :: rest else f :: setFieldList rest name new

/-- Node-level variant of `setFieldList`. -/
def setFieldValue (n : Node) (name : Str) (new : Field) : Node :=
  .mk n.onCascade (setFieldList n.fields name new)

/-- The field names of a node, in order. -/
def fieldNames (n : Node) : List Str := n.fields.map Field.getName

theorem sizeOf_fields_lt (n : Node) : sizeOf n.fields < sizeOf n := by
  cases n with
  | mk c fs => simp [Node.fields]

theorem getField_sizeOf {n : Node} {name : Str} {f : Field}
    (h : getField n name = some f) : sizeOf f < sizeOf n :=
  Nat.lt_trans (List.sizeOf_lt_of_mem (List.mem_of_find?_eq_some h))
    (sizeOf_fields_lt n)

/-- Evaluate the `current_filters` loop of `Node.filter`: resolve each
filter's field and lookup and require a match; the first failure is the
raised exception. -/
def evalCurrents (n : Node) : List Filter → Option FErr
  | [] => none
  | f :: rest =>
    match getField n f.fieldName with
    | none => some (.fieldNotFound f.fieldName)
    | some fld =>
      match resolveLookup fld.kind f.lookupName with
      | none => some (.lookupNotFound f.lookupName)
      | some lk =>
        match runLookup lk fld f.value with
        | .error e => some e
        | .ok true => evalCurrents n rest
        | .ok false => some .objectNotFound

/-- The body of the `next_filters` loop of `Node.filter`, parametrized by
the recursive filter used on a nested record (`recN`) and on a nested
record-collection (`recD`).  Group keys are pairwise distinct, so each
pending group still sees its original field; fields are therefore fetched
from `orig` while the in-place updates accumulate in `acc`. -/
def processGroupsWith
    (recN : Node → Kwargs → Node × Option FErr)
    (recD : List Node → Kwargs → List Node × List Node × Option FErr)
    (orig : Node) : Node → Groups → Node × Option FErr
  | acc, [] => (acc, none)
  | acc, (parent, sub) :: rest =>
    match getField orig parent with
    | some (.nodeF name child) =>
      let res := recN child sub
      let acc1 := setFieldValue acc parent (.nodeF name res.1)
      match res.2 with
      | some e => (acc1, some e)
      | none => processGroupsWith recN recD orig acc1 rest
    | some (.datasetF name ns) =>
      let res := recD ns sub
      let acc1 := setFieldValue acc parent (.datasetF name res.1)
      match res.2.2 with
      | some e => (acc1, some e)
      | none =>
        if res.2.1.isEmpty then (acc1, some .objectNotFound)
        else if orig.onCascade then
          processGroupsWith recN recD orig
            (setFieldValue acc parent (.datasetF name res.2.1)) rest
        else processGroupsWith recN recD orig acc1 rest
    | some _ => (acc, some .attributeError)
    | none => (acc, some (.fieldNotFound parent))

/-- The loop of `Dataset._filter`, parametrized by the per-record filter:
each node is filtered, `ObjectNotFound` excludes it, any other exception
propagates immediately.  Returns (post-call states of the input nodes,
surviving nodes, propagated exception). -/
def datasetFilterWith (recN : Node → Kwargs → Node × Option FErr) :
    List Node → Kwargs → List Node × List Node × Option FErr
  | [], _ => ([], [], none)
  | m :: rest, kwargs =>
    let res := recN m kwargs
    match res.2 with
    | none =>
      let tail := datasetFilterWith recN rest kwargs
      (res.1 :: tail.1, res.1 :: tail.2.1, tail.2.2)
    | some .objectNotFound =>
      let tail := datasetFilterWith recN rest kwargs
      (res.1 :: tail.1, tail.2.1, tail.2.2)
    | some e => (res.1 :: rest, [], some e)

/-- `Node.filter(**kwargs)` with the in-place mutations made explicit and an
explicit recursion budget: the result is the post-call state of the node
paired with the raised exception, if any (`none` means the record satisfied
the filter).  One unit of budget is consumed at each descent into a nested
record or record-collection; the wrappers below supply a sufficient budget,
so the `fuelOut` artifact never arises through them. -/
def nodeFilterF : Nat → Node → Kwargs → Node × Option FErr
  | 0, n, _ => (n, some .fuelOut)
  | fuel + 1, n, kwargs =>
    if kwargs.isEmpty then (n, none)
    else
      match firstInvalidKey (getFilters n) (kwargs.map (fun kv => kv.1)) with
      | some k => (n, some (.filterDoesNotExist k))
      | none =>
        match parserFilters n kwargs with
        | none => (n, some .valueError)
        | some (current, groups) =>
          match evalCurrents n current with
          | some e => (n, some e)
          | none =>
            processGroupsWith (nodeFilterF fuel) (datasetFilterWith (nodeFilterF fuel))
              n n groups

mutual
/-- Nesting depth of a record along related fields: the recursion depth of
`Node.filter` on it. -/
def Node.depthN : Node → Nat
  | .mk _ fs => fieldsDepth fs + 1

/-- Nesting depth reachable through one field. -/
def Field.depthF : Field → Nat
  | .valueF _ _ => 0
  | .arrayF _ _ => 0
  | .nodeF _ c => c.depthN
  | .datasetF _ ns => nodesDepth ns

/-- Depth over a field list. -/
def fieldsDepth : List Field → Nat
  | [] => 0
  | f :: rest => max f.depthF (fieldsDepth rest)

/-- Depth over a node list. -/
def nodesDepth : List Node → Nat
  | [] => 0
  | n :: rest => max n.depthN (nodesDepth rest)
end

/-- `Node.filter(**kwargs)`: the fuel-free wrapper, with a budget large
enough that the recursion never exhausts it. -/
def nodeFilter (n : Node) (kwargs : Kwargs) : Node × Option FErr :=
  nodeFilterF n.depthN n kwargs

/-- `Dataset._filter` / `Dataset.filter` over the node list of a dataset. -/
def datasetFilter (ns : List Node) (kwargs : Kwargs) :
    List Node × List Node × Option FErr :=
  datasetFilterWith nodeFilter ns kwargs

/-- The loop of `Dataset.exclude`. -/
def datasetExcludeGo (ns : List Node) (kwargs : Kwargs) :
    List Node × List Node × Option FErr :=
  match ns with
  | [] => ([], [], none)
  | m :: rest =>
    let res := nodeFilter m kwargs
    match res.2 with
    | none =>
      let tail := datasetExcludeGo rest kwargs
      (res.1 :: tail.1, tail.2.1, tail.2.2)
    | some .objectNotFound =>
      let tail := datasetExcludeGo rest kwargs
      (res.1 :: tail.1, res.1 :: tail.2.1, tail.2.2)
    | some e => (res.1 :: rest, [], some e)

/-- `Dataset.exclude`: with no keyword arguments the dataset itself is
returned; otherwise keep the records whose filter raises `ObjectNotFound`.
Returns (post-call states, kept nodes, propagated exception). -/
def datasetExclude (ns : List Node) (kwargs : Kwargs) :
    List Node × List Node × Option FErr :=
  if kwargs.isEmpty then (ns, ns, none) else datasetExcludeGo ns kwargs

/-! ## Structural equality (`Field.__eq__`, `Node.__eq__`, `Dataset.__eq__`) -/

mutual
/-- `Field.__eq__`: same concrete class, same name, `==` values
(`ArrayField` values compare elementwise as Python lists, `NodeField` values
through `Node.__eq__`, `DatasetField` values through `Dataset.__eq__`,
i.e. node-set equality). -/
def fieldEqB (f g : Field) : Bool :=
  match f, g with
  | .valueF n₁ v₁, .valueF n₂ v₂ => n₁ == n₂ && primEq v₁ v₂
  | .arrayF n₁ e₁, .arrayF n₂ e₂ => n₁ == n₂ && fieldListEqB e₁ e₂
  | .nodeF n₁ c₁, .nodeF n₂ c₂ => n₁ == n₂ && nodeEqB c₁ c₂
  | .datasetF n₁ d₁, .datasetF n₂ d₂ =>
    n₁ == n₂ && (nodeSubB d₁ d₂ && d₂.all (fun m => nodeMemRevB d₁ m))
  | _, _ => false
termination_by structural f

/-- Python `list.__eq__` on stored `ArrayField` element lists. -/
def fieldListEqB (fs gs : List Field) : Bool :=
  match fs, gs with
  | [], [] => true
  | f :: fs', g :: gs' => fieldEqB f g && fieldListEqB fs' gs'
  | _, _ => false
termination_by structural fs

/-- Every field of `fs` is `Field.__eq__` to some field of `gs`. -/
def fieldSubB (fs gs : List Field) : Bool :=
  match fs with
  | [] => true
  | f :: fs' => gs.any (fun g => fieldEqB f g) && fieldSubB fs' gs
termination_by structural fs

/-- Some field of `fs` is `Field.__eq__` to `g`. -/
def fieldMemRevB (fs : List Field) (g : Field) : Bool :=
  match fs with
  | [] => false
  | f :: fs' => fieldEqB f g || fieldMemRevB fs' g
termination_by structural fs

/-- `Node.__eq__`: `set(self.fields.values()) == set(other.fields.values())`
as a double inclusion up to `Field.__eq__` (the cascade flag does not
participate). -/
def nodeEqB (n m : Node) : Bool :=
  match n, m with
  | .mk _ fs, .mk _ gs => fieldSubB fs gs && gs.all (fun g => fieldMemRevB fs g)
termination_by structural n

/-- Every node of `ns` is `Node.__eq__` to some node of `ms`. -/
def nodeSubB (ns ms : List Node) : Bool :=
  match ns with
  | [] => true
  | n :: ns' => ms.any (fun m => nodeEqB n m) && nodeSubB ns' ms
termination_by structural ns

/-- Some node of `ns` is `Node.__eq__` to `m`. -/
def nodeMemRevB (ns : List Node) (m : Node) : Bool :=
  match ns with
  | [] => false
  | n :: ns' => nodeEqB n m || nodeMemRevB ns' m
termination_by structural ns
end

/-- `n in ms` up to `Node.__eq__` (Python membership in a node list). -/
def nodeMemB (n : Node) (ms : List Node) : Bool :=
  ms.any (fun m => nodeEqB n m)

/-- `Dataset.__eq__`: node-set equality as a double inclusion. -/
def nodeSetEqB (ns ms : List Node) : Bool :=
  nodeSubB ns ms && nodeSubB ms ns

/-- The append-if-absent loop shared by `Dataset.distinct` and
`Dataset.__or__`: membership is tested against the accumulated list. -/
def distinctGo (acc : List Node) : List Node → List Node
  | [] => acc
  | m :: rest =>
    if nodeMemB m acc then distinctGo acc rest else distinctGo (acc ++ [m]) rest

/-- `Dataset.distinct`: drop structural duplicates, first occurrence kept. -/
def distinctNodes (ns : List Node) : List Node := distinctGo [] ns

/-- `Dataset.__or__`: start from `self.distinct()` and append the other
set's nodes not already present. -/
def datasetUnion (a b : List Node) : List Node := distinctGo (distinctNodes a) b

/-! ## Cascade state -/

mutual
/-- The cascade flag is unset on this node and, hereditarily, on every
record reachable through related fields (the region `activate_on_cascade`
walks, which is also the region `Node.filter` can mutate). -/
def Node.cascadeOff : Node → Bool
  | .mk c fs => !c && fieldsCascadeOff fs

/-- `cascadeOff` over a field's related records. -/
def Field.cascadeOff : Field → Bool
  | .valueF _ _ => true
  | .arrayF _ _ => true
  | .nodeF _ c => c.cascadeOff
  | .datasetF _ ns => nodesCascadeOff ns

/-- `cascadeOff` over a field list. -/
def fieldsCascadeOff : List Field → Bool
  | [] => true
  | f :: rest => f.cascadeOff && fieldsCascadeOff rest

/-- `cascadeOff` over a node list. -/
def nodesCascadeOff : List Node → Bool
  | [] => true
  | n :: rest => n.cascadeOff && nodesCascadeOff rest
end

/-! ## Construction (`get_field_class`, `Field.__init__`, `Dataset._populate`)
and deserialization (`values`, `deserialize`) -/

/-- Construction-time exceptions: the `NameError` of `_check_field_name`,
the `TypeError` of the `validate` hooks, the `ValueError` of
`Dataset._populate` / `DatasetField.validate`. -/
inductive BuildErr where
  | nameError
  | typeError
  | valueError
deriving DecidableEq

/-- `Field._check_field_name` fails: the name ends with the separator or
contains it. -/
def badName (name : Str) : Bool := sepS.isSuffixOf name || containsSep name

/-- Is this tree a mapping? -/
def isObjB : JValue → Bool
  | .obj _ => true
  | _ => false

mutual
/-- `get_field_class(name, value)` followed by the chosen `Field.__init__`:
classify the raw value, serialize it (which builds nested fields first,
running their own name checks), then check the field name. -/
def buildField (name : Str) (v : JValue) : Except BuildErr Field :=
  match v with
  | .prim p =>
    if badName name then .error .nameError else .ok (.valueF name p)
  | .obj kvs =>
    match buildFieldsKV kvs with
    | .error e => .error e
    | .ok fs =>
      if badName name then .error .nameError else .ok (.nodeF name (.mk false fs))
  | .arr xs =>
    if xs.all isObjB then
      match buildNodeList xs with
      | .error e => .error e
      | .ok ns =>
        if badName name then .error .nameError else .ok (.datasetF name ns)
    else
      match buildFieldList name xs with
      | .error e => .error e
      | .ok es =>
        if badName name then .error .nameError else .ok (.arrayF name es)

/-- `Node._populate`: build one field per key. -/
def buildFieldsKV (kvs : List (Str × JValue)) : Except BuildErr (List Field) :=
  match kvs with
  | [] => .ok []
  | (k, v) :: rest =>
    match buildField k v with
    | .error e => .error e
    | .ok f =>
      match buildFieldsKV rest with
      | .error e => .error e
      | .ok fs => .ok (f :: fs)

/-- `Dataset._populate` over a list of mappings (every element already
checked to be a mapping). -/
def buildNodeList (xs : List JValue) : Except BuildErr (List Node) :=
  match xs with
  | [] => .ok []
  | .obj kvs :: rest =>
    match buildFieldsKV kvs with
    | .error e => .error e
    | .ok fs =>
      match buildNodeList rest with
      | .error e => .error e
      | .ok ns => .ok (.mk false fs :: ns)
  | _ :: _ => .error .valueError

/-- `ArrayField.serialize`: classify every element under the field name. -/
def buildFieldList (name : Str) (xs : List JValue) : Except BuildErr (List Field) :=
  match xs with
  | [] => .ok []
  | x :: rest =>
    match buildField name x with
    | .error e => .error e
    | .ok f =>
      match buildFieldList name rest with
      | .error e => .error e
      | .ok fs => .ok (f :: fs)
end

/-- `Node(data)` for a mapping. -/
def buildNode (kvs : List (Str × JValue)) : Except BuildErr Node :=
  match buildFieldsKV kvs with
  | .error e => .error e
  | .ok fs => .ok (.mk false fs)

/-- `Dataset(data)`: a mapping yields one record, a sequence must consist
of mappings, anything else is a `ValueError`. -/
def buildDataset (v : JValue) : Except BuildErr (List Node) :=
  match v with
  | .obj kvs =>
    match buildNode kvs with
    | .error e => .error e
    | .ok nd => .ok [nd]
  | .arr xs =>
    if xs.all isObjB then buildNodeList xs else .error .valueError
  | .prim _ => .error .valueError

mutual
/-- `Field.deserialize`. -/
def fieldDeserialize : Field → JValue
  | .valueF _ v => .prim v
  | .arrayF _ es => .arr (fieldsDeserialize es)
  | .nodeF _ c => .obj (nodeValues c)
  | .datasetF _ ns => .arr (nodesValues ns)

/-- `deserialize` over array elements. -/
def fieldsDeserialize : List Field → List JValue
  | [] => []
  | f :: rest => fieldDeserialize f :: fieldsDeserialize rest

/-- `Node.values`. -/
def nodeValues : Node → List (Str × JValue)
  | .mk _ fs => fieldsValues fs

/-- `values` over the fields of a record. -/
def fieldsValues : List Field → List (Str × JValue)
  | [] => []
  | f :: rest => (f.getName, fieldDeserialize f) :: fieldsValues rest

/-- `Dataset.values` as trees. -/
def nodesValues : List Node → List JValue
  | [] => []
  | n :: rest => .obj (nodeValues n) :: nodesValues rest
end

/-- `Dataset.values()`: the list of record dictionaries. -/
def datasetValues (ns : List Node) : List JValue := nodesValues ns

/-- `Field.set_value` on an existing field: validate against the field's
concrete class, re-serialize, and store; the field name is not re-checked
(only `__init__` checks it) and never changes. -/
def fieldSetValue (f : Field) (v : JValue) : Except BuildErr Field :=
  match f with
  | .valueF name _ =>
    match v with
    | .prim p => .ok (.valueF name p)
    | _ => .error .typeError
  | .arrayF name _ =>
    match v with
    | .arr xs =>
      match buildFieldList name xs with
      | .error e => .error e
      | .ok es => .ok (.arrayF name es)
    | _ => .error .typeError
  | .nodeF name _ =>
    match v with
    | .obj kvs =>
      match buildFieldsKV kvs with
      | .error e => .error e
      | .ok fs => .ok (.nodeF name (.mk false fs))
    | _ => .error .typeError
  | .datasetF name _ =>
    match v with
    | .arr xs =>
      if xs.all isObjB then
        match buildNodeList xs with
        | .error e => .error e
        | .ok ns => .ok (.datasetF name ns)
      else .error .valueError
    | _ => .error .typeError

/-! ## The specification's path-matching rule (for comparison with the
implemented one) -/

/-- Modelled from the spec, §4.4 step 1: the set of valid paths that are
prefixes of the raw key, i.e. such that "the raw key equals the path
followed by the separator followed by arbitrary remainder, OR equals the
path exactly".  Kept in the path-set order. -/
def claimPrefixCandidates (paths : List Str) (k : Str) : List Str :=
  paths.filter (fun p => k == p || (p ++ sepS).isPrefixOf k)

/-! ## Example records -/

/-- `{"id": 1, "tag": ["x", "y"]}`. -/
def tagRecord1 : Node :=
  .mk false [.valueF "id".data (.int 1),
    .arrayF "tag".data [.valueF "tag".data (.str "x".data),
      .valueF "tag".data (.str "y".data)]]

/-- `{"id": 2, "tag": ["y"]}`. -/
def tagRecord2 : Node :=
  .mk false [.valueF "id".data (.int 2),
    .arrayF "tag".data [.valueF "tag".data (.str "y".data)]]

/-! ## Claim C1 -/

/-- **C1** — The claim says path resolution considers exactly the valid
paths `p` with `k = p` or `k = p ++ "__" ++ rest` and selects the longest.
The code (`get_match_filter`) instead keeps a path only when its *last*
occurrence in the key sits at position 0, so a path that re-occurs later in
the key is discarded.  On the record `{"a": 1}` and the key `a__exact`
(the `a` of `exact` re-occurs), the claimed candidate set is `{"a"}` but the
implemented candidate set is empty, and the whole filter call dies with the
`ValueError` of `max()` on an empty sequence instead of resolving the
`exact` predicate on field `a`. -/
theorem c1_resolution_diverges_from_prefix_rule :
    getFilters (Node.mk false [.valueF "a".data (.int 1)]) = ["a".data] ∧
    claimPrefixCandidates ["a".data] "a__exact".data = ["a".data] ∧
    getMatchFilter ["a".data] "a__exact".data = none ∧
    nodeFilter (Node.mk false [.valueF "a".data (.int 1)])
        [("a__exact".data, .prim (.int 1))] =
      (Node.mk false [.valueF "a".data (.int 1)], some .valueError) :=
  ⟨rfl, rfl, rfl, rfl⟩

/-! ## Claim C6 -/

/-- **C6** — On the dataset `[{"id":1,"tag":["x","y"]},{"id":2,"tag":["y"]}]`:
`filter(tag__contains="x")` keeps exactly the record with `id` 1,
`filter(tag__overlap=["y"])` keeps both records, and `filter(tag__len=1)`
keeps exactly the record with `id` 2; no call raises and no record is
mutated. -/
theorem c6_array_lookup_examples :
    datasetFilter [tagRecord1, tagRecord2]
        [("tag__contains".data, .prim (.str "x".data))] =
      ([tagRecord1, tagRecord2], [tagRecord1], none) ∧
    datasetFilter [tagRecord1, tagRecord2]
        [("tag__overlap".data, .list [.prim (.str "y".data)])] =
      ([tagRecord1, tagRecord2], [tagRecord1, tagRecord2], none) ∧
    datasetFilter [tagRecord1, tagRecord2]
        [("tag__len".data, .prim (.int 1))] =
      ([tagRecord1, tagRecord2], [tagRecord2], none) :=
  ⟨rfl, rfl, rfl⟩

/-! ## Claim C10 -/

/-- **C10** — For a record with valid path `tag` and no valid path `tags`
(here `{"tag": v}` for any scalar `v`), a filter key `tags` passes the
pre-validation (`tags` starts with the valid path `tag`), resolves to the
path `tag` with residual predicate name `s`, and the call fails with the
predicate-not-found error (`LookupError`), not with the
`FilterDoesNotExist` error: path matching does not require a separator
boundary after the matched path. -/
theorem c10_no_separator_boundary (v : Prim) (w : FilterVal) :
    firstInvalidKey (getFilters (Node.mk false [.valueF "tag".data v]))
        ["tags".data] = none ∧
    getMatchFilter (getFilters (Node.mk false [.valueF "tag".data v]))
        "tags".data = some "tag".data ∧
    getLookupName "tags".data "tag".data = "s".data ∧
    nodeFilter (Node.mk false [.valueF "tag".data v]) [("tags".data, w)] =
      (Node.mk false [.valueF "tag".data v], some (.lookupNotFound "s".data)) :=
  ⟨rfl, rfl, rfl, rfl⟩

/-! ## Claim C5: construction / `values()` round trip -/

theorem ite_name_ok {α : Type} {c : Bool} {r : α} {e : BuildErr} {f : α}
    (h : (if c then Except.error e else Except.ok r) = .ok f) : f = r := by
  cases c with
  | true => simp at h
  | false => simp only [Bool.false_eq_true, if_false] at h; cases h; rfl

mutual
theorem buildField_roundtrip (name : Str) (v : JValue) (f : Field)
    (h : buildField name v = .ok f) :
    f.getName = name ∧ fieldDeserialize f = v := by
  match v with
  | .prim p =>
    simp only [buildField] at h
    split at h
    · exact Except.noConfusion h
    · cases h
      exact ⟨rfl, rfl⟩
  | .obj kvs =>
    simp only [buildField] at h
    cases hkv : buildFieldsKV kvs with
    | error e => rw [hkv] at h; exact Except.noConfusion h
    | ok fs =>
      rw [hkv] at h
      obtain rfl := ite_name_ok h
      exact ⟨rfl, by
        simp only [fieldDeserialize, nodeValues, buildFieldsKV_roundtrip kvs fs hkv]⟩
  | .arr xs =>
    simp only [buildField] at h
    split at h
    · cases hnl : buildNodeList xs with
      | error e => rw [hnl] at h; exact Except.noConfusion h
      | ok ns =>
        rw [hnl] at h
        obtain rfl := ite_name_ok h
        exact ⟨rfl, by
          simp only [fieldDeserialize, buildNodeList_roundtrip xs ns hnl]⟩
    · cases hfl : buildFieldList name xs with
      | error e => rw [hfl] at h; exact Except.noConfusion h
      | ok es =>
        rw [hfl] at h
        obtain rfl := ite_name_ok h
        exact ⟨rfl, by
          simp only [fieldDeserialize, buildFieldList_roundtrip name xs es hfl]⟩
termination_by sizeOf v

theorem buildFieldsKV_roundtrip (kvs : List (Str × JValue)) (fs : List Field)
    (h : buildFieldsKV kvs = .ok fs) : fieldsValues fs = kvs := by
  match kvs with
  | [] =>
    simp only [buildFieldsKV] at h
    cases h
    rfl
  | (k, v) :: rest =>
    simp only [buildFieldsKV] at h
    cases hf : buildField k v with
    | error e => rw [hf] at h; exact Except.noConfusion h
    | ok f =>
      rw [hf] at h
      cases hr : buildFieldsKV rest with
      | error e => rw [hr] at h; exact Except.noConfusion h
      | ok fs' =>
        rw [hr] at h
        cases h
        have hhead := buildField_roundtrip k v f hf
        simp only [fieldsValues, hhead.1, hhead.2,
          buildFieldsKV_roundtrip rest fs' hr]
termination_by sizeOf kvs

theorem buildNodeList_roundtrip (xs : List JValue) (ns : List Node)
    (h : buildNodeList xs = .ok ns) : nodesValues ns = xs := by
  match xs with
  | [] =>
    simp only [buildNodeList] at h
    cases h
    rfl
  | .obj kvs :: rest =>
    simp only [buildNodeList] at h
    cases hkv : buildFieldsKV kvs with
    | error e => rw [hkv] at h; exact Except.noConfusion h
    | ok fs =>
      rw [hkv] at h
      cases hr : buildNodeList rest with
      | error e => rw [hr] at h; exact Except.noConfusion h
      | ok ns' =>
        rw [hr] at h
        cases h
        simp only [nodesValues, nodeValues, buildFieldsKV_roundtrip kvs fs hkv,
          buildNodeList_roundtrip rest ns' hr]
  | .prim _ :: rest =>
    simp only [buildNodeList] at h
    exact Except.noConfusion h
  | .arr _ :: rest =>
    simp only [buildNodeList] at h
    exact Except.noConfusion h
termination_by sizeOf xs

theorem buildFieldList_roundtrip (name : Str) (xs : List JValue) (es : List Field)
    (h : buildFieldList name xs = .ok es) : fieldsDeserialize es = xs := by
  match xs with
  | [] =>
    simp only [buildFieldList] at h
    cases h
    rfl
  | x :: rest =>
    simp only [buildFieldList] at h
    cases hf : buildField name x with
    | error e => rw [hf] at h; exact Except.noConfusion h
    | ok f =>
      rw [hf] at h
      cases hr : buildFieldList name rest with
      | error e => rw [hr] at h; exact Except.noConfusion h
      | ok fs' =>
        rw [hr] at h
        cases h
        simp only [fieldsDeserialize, (buildField_roundtrip name x f hf).2,
          buildFieldList_roundtrip name rest fs' hr]
termination_by sizeOf xs
end

/-- The shape `values()` actually returns: the input tree when it is a
sequence of mappings, and the one-element sequence holding the input when it
is a single mapping. -/
def wrapTree : JValue → JValue
  | .arr xs => .arr xs
  | t => .arr [t]

/-- **C5 (counterexample)** — On the single-mapping input `{"a": 1}`,
construction succeeds but `values()` returns the one-element list
`[{"a": 1}]`, which is not deep-equal to the input mapping itself: the
claimed round trip fails for single-mapping inputs. -/
theorem c5_single_mapping_not_roundtrip :
    buildDataset (.obj [("a".data, .prim (.int 1))]) =
      .ok [.mk false [.valueF "a".data (.int 1)]] ∧
    JValue.arr (datasetValues [.mk false [.valueF "a".data (.int 1)]]) ≠
      .obj [("a".data, .prim (.int 1))] :=
  ⟨rfl, fun h => JValue.noConfusion h⟩

/-- **C5 (amended)** — For every input tree the construction accepts,
`values()` returns the input itself when the input is a sequence of
mappings, and the one-element sequence holding the input when the input is
a single mapping (`wrapTree`). -/
theorem c5_values_roundtrip (t : JValue) (ns : List Node)
    (h : buildDataset t = .ok ns) :
    JValue.arr (datasetValues ns) = wrapTree t := by
  match t with
  | .prim p =>
    simp only [buildDataset] at h
    exact Except.noConfusion h
  | .obj kvs =>
    simp only [buildDataset, buildNode] at h
    cases hkv : buildFieldsKV kvs with
    | error e => rw [hkv] at h; exact Except.noConfusion h
    | ok fs =>
      rw [hkv] at h
      cases h
      simp only [wrapTree, datasetValues, nodesValues, nodeValues,
        buildFieldsKV_roundtrip kvs fs hkv]
  | .arr xs =>
    simp only [buildDataset] at h
    split at h
    · simp only [wrapTree, datasetValues, buildNodeList_roundtrip xs ns h]
    · exact Except.noConfusion h

/-- **C5 (witness)** — The amended round trip at the concrete input
`[{"a": 1}]`. -/
theorem c5_values_roundtrip_witness :
    JValue.arr (datasetValues [.mk false [.valueF "a".data (.int 1)]]) =
      wrapTree (.arr [.obj [("a".data, .prim (.int 1))]]) :=
  c5_values_roundtrip (.arr [.obj [("a".data, .prim (.int 1))]])
    [.mk false [.valueF "a".data (.int 1)]] rfl

/-! ## Claim C8: field-name validation and name immutability -/

mutual
theorem buildField_err (name : Str) (v : JValue) (e : BuildErr)
    (h : buildField name v = .error e) : e = .nameError := by
  match v with
  | .prim p =>
    simp only [buildField] at h
    split at h
    · cases h; rfl
    · exact Except.noConfusion h
  | .obj kvs =>
    simp only [buildField] at h
    cases hkv : buildFieldsKV kvs with
    | error e' =>
      simp only [hkv] at h
      cases h
      exact buildFieldsKV_err kvs e hkv
    | ok fs =>
      simp only [hkv] at h
      split at h
      · cases h; rfl
      · exact Except.noConfusion h
  | .arr xs =>
    simp only [buildField] at h
    split at h
    case isTrue hobj =>
      cases hnl : buildNodeList xs with
      | error e' =>
        simp only [hnl] at h
        cases h
        exact buildNodeList_err xs e hobj hnl
      | ok ns =>
        simp only [hnl] at h
        split at h
        · cases h; rfl
        · exact Except.noConfusion h
    case isFalse hobj =>
      cases hfl : buildFieldList name xs with
      | error e' =>
        simp only [hfl] at h
        cases h
        exact buildFieldList_err name xs e hfl
      | ok es =>
        simp only [hfl] at h
        split at h
        · cases h; rfl
        · exact Except.noConfusion h
termination_by sizeOf v

theorem buildFieldsKV_err (kvs : List (Str × JValue)) (e : BuildErr)
    (h : buildFieldsKV kvs = .error e) : e = .nameError := by
  match kvs with
  | [] => simp only [buildFieldsKV] at h; exact Except.noConfusion h
  | (k, v) :: rest =>
    simp only [buildFieldsKV] at h
    cases hf : buildField k v with
    | error e' =>
      simp only [hf] at h
      cases h
      exact buildField_err k v e hf
    | ok f =>
      simp only [hf] at h
      cases hr : buildFieldsKV rest with
      | error e' =>
        simp only [hr] at h
        cases h
        exact buildFieldsKV_err rest e hr
      | ok fs => simp only [hr] at h; exact Except.noConfusion h
termination_by sizeOf kvs

theorem buildNodeList_err (xs : List JValue) (e : BuildErr)
    (hobj : xs.all isObjB = true) (h : buildNodeList xs = .error e) :
    e = .nameError := by
  match xs with
  | [] => simp only [buildNodeList] at h; exact Except.noConfusion h
  | .obj kvs :: rest =>
    simp only [buildNodeList] at h
    cases hkv : buildFieldsKV kvs with
    | error e' =>
      simp only [hkv] at h
      cases h
      exact buildFieldsKV_err kvs e hkv
    | ok fs =>
      simp only [hkv] at h
      cases hr : buildNodeList rest with
      | error e' =>
        simp only [hr] at h
        cases h
        exact buildNodeList_err rest e
          (by
            have hh := hobj
            simp only [List.all_cons, Bool.and_eq_true] at hh
            exact hh.2) hr
      | ok ns => simp only [hr] at h; exact Except.noConfusion h
  | .prim _ :: rest => simp [List.all_cons, isObjB] at hobj
  | .arr _ :: rest => simp [List.all_cons, isObjB] at hobj
termination_by sizeOf xs

theorem buildFieldList_err (name : Str) (xs : List JValue) (e : BuildErr)
    (h : buildFieldList name xs = .error e) : e = .nameError := by
  match xs with
  | [] => simp only [buildFieldList] at h; exact Except.noConfusion h
  | x :: rest =>
    simp only [buildFieldList] at h
    cases hf : buildField name x with
    | error e' =>
      simp only [hf] at h
      cases h
      exact buildField_err name x e hf
    | ok f =>
      simp only [hf] at h
      cases hr : buildFieldList name rest with
      | error e' =>
        simp only [hr] at h
        cases h
        exact buildFieldList_err name rest e hr
      | ok fs => simp only [hr] at h; exact Except.noConfusion h
termination_by sizeOf xs
end

/-- A bad field name makes construction fail with the name error, whatever
the value: either a nested field (built first) already fails — and every
construction failure is the name error — or the field's own
`_check_field_name` fires. -/
theorem buildField_badName (name : Str) (v : JValue)
    (hb : badName name = true) : buildField name v = .error .nameError := by
  match v with
  | .prim p => simp [buildField, hb]
  | .obj kvs =>
    simp only [buildField]
    cases hkv : buildFieldsKV kvs with
    | error e => rw [buildFieldsKV_err kvs e hkv]
    | ok fs => simp [hb]
  | .arr xs =>
    simp only [buildField]
    split
    case isTrue hobj =>
      cases hnl : buildNodeList xs with
      | error e => rw [buildNodeList_err xs e hobj hnl]
      | ok ns => simp [hb]
    case isFalse hobj =>
      cases hfl : buildFieldList name xs with
      | error e => rw [buildFieldList_err name xs e hfl]
      | ok es => simp [hb]

/-- `set_value` never changes the field name. -/
theorem fieldSetValue_getName (f : Field) (v : JValue) (f' : Field)
    (h : fieldSetValue f v = .ok f') : f'.getName = f.getName := by
  match f, v with
  | .valueF name _, .prim p => cases h; rfl
  | .valueF name _, .arr _ => exact Except.noConfusion h
  | .valueF name _, .obj _ => exact Except.noConfusion h
  | .arrayF name _, .prim _ => exact Except.noConfusion h
  | .arrayF name _, .obj _ => exact Except.noConfusion h
  | .arrayF name _, .arr xs =>
    simp only [fieldSetValue] at h
    cases hfl : buildFieldList name xs with
    | error e => rw [hfl] at h; exact Except.noConfusion h
    | ok es => rw [hfl] at h; cases h; rfl
  | .nodeF name _, .prim _ => exact Except.noConfusion h
  | .nodeF name _, .arr _ => exact Except.noConfusion h
  | .nodeF name _, .obj kvs =>
    simp only [fieldSetValue] at h
    cases hkv : buildFieldsKV kvs with
    | error e => rw [hkv] at h; exact Except.noConfusion h
    | ok fs => rw [hkv] at h; cases h; rfl
  | .datasetF name _, .prim _ => exact Except.noConfusion h
  | .datasetF name _, .obj _ => exact Except.noConfusion h
  | .datasetF name _, .arr xs =>
    simp only [fieldSetValue] at h
    split at h
    · cases hnl : buildNodeList xs with
      | error e => rw [hnl] at h; exact Except.noConfusion h
      | ok ns => rw [hnl] at h; cases h; rfl
    · exact Except.noConfusion h

/-- **C8** — Constructing a field whose name contains the separator `__`
(which subsumes ending with it: `badName` checks both, as
`_check_field_name` does) fails at construction time with the name error,
for every value; and the field name is immutable: replacing a field's value
through `set_value` keeps its name. -/
theorem c8_name_validation_and_immutability :
    (∀ (name : Str) (v : JValue), badName name = true →
      buildField name v = .error .nameError) ∧
    (∀ (f : Field) (v : JValue) (f' : Field), fieldSetValue f v = .ok f' →
      f'.getName = f.getName) :=
  ⟨buildField_badName, fieldSetValue_getName⟩

/-- **C8 (witness)** — The name `a__b` is rejected on a concrete
construction, and a concrete `set_value` keeps the name `a`. -/
theorem c8_name_validation_witness :
    buildField "a__b".data (.prim (.int 1)) = .error .nameError ∧
    (Field.valueF "a".data (.int 2)).getName = (Field.valueF "a".data (.int 1)).getName :=
  ⟨c8_name_validation_and_immutability.1 "a__b".data (.prim (.int 1)) rfl,
   c8_name_validation_and_immutability.2 (.valueF "a".data (.int 1)) (.prim (.int 2))
     (.valueF "a".data (.int 2)) rfl⟩

/-! ## Claim C2: keyword validation before any predicate evaluation -/

theorem depthN_pos (n : Node) : 1 ≤ n.depthN := by
  cases n with
  | mk c fs => simp [Node.depthN]

/-- `nodeFilter` unfolded one step (the wrapper's budget is positive). -/
theorem nodeFilter_unfold (n : Node) (kw : Kwargs) :
    nodeFilter n kw =
      (if kw.isEmpty then (n, none)
       else
        match firstInvalidKey (getFilters n) (kw.map (fun kv => kv.1)) with
        | some k => (n, some (.filterDoesNotExist k))
        | none =>
          match parserFilters n kw with
          | none => (n, some .valueError)
          | some (current, groups) =>
            match evalCurrents n current with
            | some e => (n, some e)
            | none =>
              processGroupsWith (nodeFilterF (n.depthN - 1))
                (datasetFilterWith (nodeFilterF (n.depthN - 1))) n n groups) := by
  cases n with
  | mk c fs =>
    show nodeFilterF (Node.depthN (.mk c fs)) _ _ = _
    rw [show Node.depthN (.mk c fs) = fieldsDepth fs + 1 from rfl]
    rfl

/-- **C2** — If some keyword key is neither a prefix of nor prefixed by any
valid path of the record, the whole filter call fails with the
`FilterDoesNotExist` error and the record is returned unchanged: the
validation loop runs over the keys before `_parser_filters` is called, so
no predicate is evaluated and no mutation can have happened. -/
theorem c2_invalid_key_fails_whole_call (n : Node) (kw : Kwargs)
    (h : kw.any (fun kv => (getFilters n).all
        (fun p => !(p.isPrefixOf kv.1) && !(kv.1.isPrefixOf p))) = true) :
    ∃ k, nodeFilter n kw = (n, some (.filterDoesNotExist k)) := by
  obtain ⟨kv, hkv, hpred⟩ := List.any_eq_true.mp h
  have hkwne : kw.isEmpty = false := by
    cases kw with
    | nil => cases hkv
    | cons a l => rfl
  have hfail : ∃ k, k ∈ kw.map (fun kv => kv.1) ∧
      (!((getFilters n).any (fun f => f.isPrefixOf k))) = true := by
    refine ⟨kv.1, List.mem_map_of_mem _ hkv, ?_⟩
    simp only [Bool.not_eq_true', List.any_eq_false]
    intro p hp
    have := List.all_eq_true.mp hpred p hp
    simp only [Bool.and_eq_true, Bool.not_eq_true'] at this
    simp [this.1]
  have hsome : (firstInvalidKey (getFilters n) (kw.map (fun kv => kv.1))).isSome := by
    unfold firstInvalidKey
    rw [List.find?_isSome]
    obtain ⟨k, hk1, hk2⟩ := hfail
    exact ⟨k, hk1, hk2⟩
  obtain ⟨k, hk⟩ := Option.isSome_iff_exists.mp hsome
  refine ⟨k, ?_⟩
  rw [nodeFilter_unfold, hkwne]
  simp only [Bool.false_eq_true, if_false, hk]

/-- **C2 (witness)** — On the record `{"tag": 1}` the key `foo` is neither
a prefix of nor prefixed by the only valid path `tag`, and the call fails
with `FilterDoesNotExist`. -/
theorem c2_invalid_key_fails_witness :
    ∃ k, nodeFilter (Node.mk false [.valueF "tag".data (.int 1)])
        [("foo".data, .prim (.int 1))] =
      (Node.mk false [.valueF "tag".data (.int 1)], some (.filterDoesNotExist k)) :=
  c2_invalid_key_fails_whole_call _ _ rfl

/-! ## Claim C9: filtering never deletes a field -/

theorem getField_getName {n : Node} {name : Str} {f : Field}
    (h : getField n name = some f) : f.getName = name := by
  have := List.find?_some h
  exact eq_of_beq this

theorem setFieldList_names (fs : List Field) (name : Str) (new : Field)
    (hn : new.getName = name) :
    (setFieldList fs name new).map Field.getName = fs.map Field.getName := by
  induction fs with
  | nil => rfl
  | cons f rest ih =>
    simp only [setFieldList]
    split
    case isTrue hf =>
      simp only [List.map_cons, hn]
      rw [eq_of_beq hf]
    case isFalse hf =>
      simp only [List.map_cons, ih]

theorem setFieldValue_names (n : Node) (name : Str) (new : Field)
    (hn : new.getName = name) :
    fieldNames (setFieldValue n name new) = fieldNames n := by
  cases n with
  | mk c fs =>
    simp only [fieldNames, setFieldValue, Node.fields]
    exact setFieldList_names fs name new hn

theorem processGroupsWith_names (recN : Node → Kwargs → Node × Option FErr)
    (recD : List Node → Kwargs → List Node × List Node × Option FErr)
    (orig : Node) (acc : Node) (gs : Groups) :
    fieldNames (processGroupsWith recN recD orig acc gs).1 = fieldNames acc := by
  induction gs generalizing acc with
  | nil => rfl
  | cons g rest ih =>
    obtain ⟨parent, sub⟩ := g
    simp only [processGroupsWith]
    split
    · rename_i name child heq
      have hname : (Field.nodeF name ((recN child sub).1)).getName = parent := by
        simpa [Field.getName] using getField_getName heq
      split
      · exact setFieldValue_names _ _ _ hname
      · rw [ih]
        exact setFieldValue_names _ _ _ hname
    · rename_i name ns heq
      have h1 : (Field.datasetF name ((recD ns sub).1)).getName = parent := by
        simpa [Field.getName] using getField_getName heq
      have h2 : (Field.datasetF name ((recD ns sub).2.1)).getName = parent := by
        simpa [Field.getName] using getField_getName heq
      split
      · exact setFieldValue_names _ _ _ h1
      · split
        · exact setFieldValue_names _ _ _ h1
        · split
          · rw [ih]
            exact setFieldValue_names _ _ _ h2
          · rw [ih]
            exact setFieldValue_names _ _ _ h1
    · rfl
    · rfl

theorem nodeFilterF_names (fuel : Nat) (n : Node) (kw : Kwargs) :
    fieldNames (nodeFilterF fuel n kw).1 = fieldNames n := by
  cases fuel with
  | zero => rfl
  | succ f =>
    simp only [nodeFilterF]
    repeat' split
    all_goals first
      | rfl
      | exact processGroupsWith_names _ _ _ _ _

theorem nodeFilter_names (n : Node) (kw : Kwargs) :
    fieldNames (nodeFilter n kw).1 = fieldNames n :=
  nodeFilterF_names n.depthN n kw

theorem datasetFilterWith_names
    (recN : Node → Kwargs → Node × Option FErr)
    (h : ∀ m kw, fieldNames (recN m kw).1 = fieldNames m)
    (ns : List Node) (kw : Kwargs) :
    (datasetFilterWith recN ns kw).1.map fieldNames = ns.map fieldNames ∧
    ∀ m ∈ (datasetFilterWith recN ns kw).2.1, ∃ x ∈ ns, fieldNames m = fieldNames x := by
  induction ns with
  | nil => exact ⟨rfl, by intro m hm; cases hm⟩
  | cons m rest ih =>
    simp only [datasetFilterWith]
    cases hr : (recN m kw).2 with
    | none =>
      refine ⟨by simp only [List.map_cons, h m kw, ih.1], ?_⟩
      intro x hx
      rcases List.mem_cons.mp hx with hx | hx
      · exact ⟨m, List.mem_cons_self m rest, hx ▸ h m kw⟩
      · obtain ⟨y, hy, hxy⟩ := ih.2 x hx
        exact ⟨y, List.mem_cons_of_mem m hy, hxy⟩
    | some e =>
      cases e with
      | objectNotFound =>
        refine ⟨by simp only [List.map_cons, h m kw, ih.1], ?_⟩
        intro x hx
        obtain ⟨y, hy, hxy⟩ := ih.2 x hx
        exact ⟨y, List.mem_cons_of_mem m hy, hxy⟩
      | filterDoesNotExist k =>
        exact ⟨by simp only [List.map_cons, h m kw], by intro x hx; cases hx⟩
      | lookupNotFound k =>
        exact ⟨by simp only [List.map_cons, h m kw], by intro x hx; cases hx⟩
      | typeError =>
        exact ⟨by simp only [List.map_cons, h m kw], by intro x hx; cases hx⟩
      | attributeError =>
        exact ⟨by simp only [List.map_cons, h m kw], by intro x hx; cases hx⟩
      | fieldNotFound k =>
        exact ⟨by simp only [List.map_cons, h m kw], by intro x hx; cases hx⟩
      | valueError =>
        exact ⟨by simp only [List.map_cons, h m kw], by intro x hx; cases hx⟩
      | indexError =>
        exact ⟨by simp only [List.map_cons, h m kw], by intro x hx; cases hx⟩
      | fuelOut =>
        exact ⟨by simp only [List.map_cons, h m kw], by intro x hx; cases hx⟩

theorem datasetExcludeGo_names (ns : List Node) (kw : Kwargs) :
    (datasetExcludeGo ns kw).1.map fieldNames = ns.map fieldNames ∧
    ∀ m ∈ (datasetExcludeGo ns kw).2.1, ∃ x ∈ ns, fieldNames m = fieldNames x := by
  induction ns with
  | nil => exact ⟨rfl, by intro m hm; cases hm⟩
  | cons m rest ih =>
    simp only [datasetExcludeGo]
    cases hr : (nodeFilter m kw).2 with
    | none =>
      refine ⟨by simp only [List.map_cons, nodeFilter_names m kw, ih.1], ?_⟩
      intro x hx
      obtain ⟨y, hy, hxy⟩ := ih.2 x hx
      exact ⟨y, List.mem_cons_of_mem m hy, hxy⟩
    | some e =>
      cases e with
      | objectNotFound =>
        refine ⟨by simp only [List.map_cons, nodeFilter_names m kw, ih.1], ?_⟩
        intro x hx
        rcases List.mem_cons.mp hx with hx | hx
        · exact ⟨m, List.mem_cons_self m rest, hx ▸ nodeFilter_names m kw⟩
        · obtain ⟨y, hy, hxy⟩ := ih.2 x hx
          exact ⟨y, List.mem_cons_of_mem m hy, hxy⟩
      | filterDoesNotExist k =>
        exact ⟨by simp only [List.map_cons, nodeFilter_names m kw], by intro x hx; cases hx⟩
      | lookupNotFound k =>
        exact ⟨by simp only [List.map_cons, nodeFilter_names m kw], by intro x hx; cases hx⟩
      | typeError =>
        exact ⟨by simp only [List.map_cons, nodeFilter_names m kw], by intro x hx; cases hx⟩
      | attributeError =>
        exact ⟨by simp only [List.map_cons, nodeFilter_names m kw], by intro x hx; cases hx⟩
      | fieldNotFound k =>
        exact ⟨by simp only [List.map_cons, nodeFilter_names m kw], by intro x hx; cases hx⟩
      | valueError =>
        exact ⟨by simp only [List.map_cons, nodeFilter_names m kw], by intro x hx; cases hx⟩
      | indexError =>
        exact ⟨by simp only [List.map_cons, nodeFilter_names m kw], by intro x hx; cases hx⟩
      | fuelOut =>
        exact ⟨by simp only [List.map_cons, nodeFilter_names m kw], by intro x hx; cases hx⟩

/-- **C9** — No filter call deletes an individual field: a record's list of
field names is the same before and after any `filter` call on it (the only
in-place update, the cascade `setattr`, replaces a field's value but keeps
the field); at the dataset level both `filter` and `exclude` leave every
record's field-name list unchanged, and every record of the result carries
the field names of a record of the input (results are new containers
selecting from the input records). -/
theorem c9_filter_preserves_field_keys :
    (∀ (n : Node) (kw : Kwargs), fieldNames (nodeFilter n kw).1 = fieldNames n) ∧
    (∀ (ns : List Node) (kw : Kwargs),
      (datasetFilter ns kw).1.map fieldNames = ns.map fieldNames ∧
      ∀ m ∈ (datasetFilter ns kw).2.1, ∃ x ∈ ns, fieldNames m = fieldNames x) ∧
    (∀ (ns : List Node) (kw : Kwargs),
      (datasetExclude ns kw).1.map fieldNames = ns.map fieldNames ∧
      ∀ m ∈ (datasetExclude ns kw).2.1, ∃ x ∈ ns, fieldNames m = fieldNames x) := by
  refine ⟨nodeFilter_names, ?_, ?_⟩
  · intro ns kw
    exact datasetFilterWith_names nodeFilter nodeFilter_names ns kw
  · intro ns kw
    by_cases hkw : kw.isEmpty
    · constructor
      · simp [datasetExclude, hkw]
      · intro m hm
        simp only [datasetExclude, hkw, if_true] at hm
        exact ⟨m, hm, rfl⟩
    · have : datasetExclude ns kw = datasetExcludeGo ns kw := by
        simp [datasetExclude, hkw]
      rw [this]
      exact datasetExcludeGo_names ns kw

/-- **C9 (witness)** — The preservation facts at a concrete record and
dataset, with the membership hypothesis discharged on the record
`{"id":1,"tag":["x","y"]}` surviving `filter(tag__len=2)`. -/
theorem c9_filter_preserves_field_keys_witness :
    fieldNames (nodeFilter tagRecord1 [("tag__len".data, .prim (.int 2))]).1 =
      fieldNames tagRecord1 ∧
    (∃ x ∈ [tagRecord1], fieldNames tagRecord1 = fieldNames x) :=
  ⟨c9_filter_preserves_field_keys.1 tagRecord1 [("tag__len".data, .prim (.int 2))],
   (c9_filter_preserves_field_keys.2.1 [tagRecord1]
      [("tag__len".data, .prim (.int 2))]).2 tagRecord1 (by
        show tagRecord1 ∈ (datasetFilter [tagRecord1] [("tag__len".data, .prim (.int 2))]).2.1
        rw [show (datasetFilter [tagRecord1] [("tag__len".data, .prim (.int 2))]).2.1
            = [tagRecord1] from rfl]
        exact List.mem_cons_self _ _)⟩

/-! ## Cascade-off records are never mutated -/

theorem cascadeOff_onCascade {n : Node} (h : n.cascadeOff = true) :
    n.onCascade = false := by
  cases n with
  | mk c fs =>
    simp only [Node.cascadeOff, Bool.and_eq_true, Bool.not_eq_true'] at h
    exact h.1

theorem fieldsCascadeOff_mem {fs : List Field} {f : Field}
    (h : fieldsCascadeOff fs = true) (hm : f ∈ fs) : f.cascadeOff = true := by
  induction fs with
  | nil => cases hm
  | cons g rest ih =>
    simp only [fieldsCascadeOff, Bool.and_eq_true] at h
    rcases List.mem_cons.mp hm with rfl | hm
    · exact h.1
    · exact ih h.2 hm

theorem cascadeOff_getField {n : Node} {p : Str} {f : Field}
    (h : n.cascadeOff = true) (hg : getField n p = some f) :
    f.cascadeOff = true := by
  cases n with
  | mk c fs =>
    simp only [Node.cascadeOff, Bool.and_eq_true] at h
    exact fieldsCascadeOff_mem h.2 (List.mem_of_find?_eq_some hg)

theorem nodesCascadeOff_split {m : Node} {rest : List Node}
    (h : nodesCascadeOff (m :: rest) = true) :
    m.cascadeOff = true ∧ nodesCascadeOff rest = true := by
  simpa only [nodesCascadeOff, Bool.and_eq_true] using h

/-- Replacing a field by the very field stored under that name is the
identity. -/
theorem setFieldList_self (fs : List Field) (p : Str) (f : Field)
    (hg : fs.find? (fun g => g.getName == p) = some f) :
    setFieldList fs p f = fs := by
  induction fs with
  | nil => cases hg
  | cons g rest ih =>
    rw [List.find?_cons] at hg
    simp only [setFieldList]
    cases hgp : (g.getName == p) with
    | true =>
      rw [hgp] at hg
      cases hg
      simp [hgp]
    | false =>
      rw [hgp] at hg
      simp [hgp, ih hg]

theorem setFieldValue_self {n : Node} {p : Str} {f : Field}
    (hg : getField n p = some f) : setFieldValue n p f = n := by
  cases n with
  | mk c fs =>
    simp only [setFieldValue, Node.onCascade, Node.fields]
    rw [setFieldList_self fs p f hg]

theorem datasetFilterWith_pure (recN : Node → Kwargs → Node × Option FErr)
    (hrec : ∀ m kw, m.cascadeOff = true → (recN m kw).1 = m)
    (ns : List Node) (kw : Kwargs) (h : nodesCascadeOff ns = true) :
    (datasetFilterWith recN ns kw).1 = ns := by
  induction ns with
  | nil => rfl
  | cons m rest ih =>
    obtain ⟨hm, hrest⟩ := nodesCascadeOff_split h
    simp only [datasetFilterWith]
    split
    · simp only [hrec m kw hm, ih hrest]
    · simp only [hrec m kw hm, ih hrest]
    · simp only [hrec m kw hm]

theorem processGroupsWith_pure (recN : Node → Kwargs → Node × Option FErr)
    (recD : List Node → Kwargs → List Node × List Node × Option FErr)
    (orig : Node) (hco : orig.cascadeOff = true)
    (hrecN : ∀ child sub, child.cascadeOff = true → (recN child sub).1 = child)
    (hrecD : ∀ ms sub, nodesCascadeOff ms = true → (recD ms sub).1 = ms)
    (gs : Groups) :
    (processGroupsWith recN recD orig orig gs).1 = orig := by
  induction gs with
  | nil => rfl
  | cons g rest ih =>
    obtain ⟨parent, sub⟩ := g
    simp only [processGroupsWith]
    split
    · rename_i name child heq
      have hch : child.cascadeOff = true := by
        simpa [Field.cascadeOff] using cascadeOff_getField hco heq
      have hres : (recN child sub).1 = child := hrecN child sub hch
      have hacc : setFieldValue orig parent (.nodeF name ((recN child sub).1)) = orig := by
        rw [hres]
        exact setFieldValue_self heq
      split
      · simp only [hacc]
      · rw [hacc]
        exact ih
    · rename_i name ns heq
      have hns : nodesCascadeOff ns = true := by
        simpa [Field.cascadeOff] using cascadeOff_getField hco heq
      have hres : (recD ns sub).1 = ns := hrecD ns sub hns
      have hacc : setFieldValue orig parent (.datasetF name ((recD ns sub).1)) = orig := by
        rw [hres]
        exact setFieldValue_self heq
      split
      · simp only [hacc]
      · split
        · simp only [hacc]
        · rw [cascadeOff_onCascade hco]
          simp only [Bool.false_eq_true, if_false]
          rw [hacc]
          exact ih
    · rfl
    · rfl

theorem nodeFilterF_pure (fuel : Nat) (n : Node) (kw : Kwargs)
    (h : n.cascadeOff = true) : (nodeFilterF fuel n kw).1 = n := by
  induction fuel generalizing n kw with
  | zero => rfl
  | succ f ih =>
    simp only [nodeFilterF]
    repeat' split
    all_goals first
      | rfl
      | exact processGroupsWith_pure _ _ n h
          (fun child sub hc => ih child sub hc)
          (fun ms sub hm => datasetFilterWith_pure _
            (fun m kw' hm' => ih m kw' hm') ms sub hm) _

/-- A record whose cascade flags are hereditarily unset is returned
unchanged by every filter call, whatever its outcome. -/
theorem nodeFilter_pure (n : Node) (kw : Kwargs) (h : n.cascadeOff = true) :
    (nodeFilter n kw).1 = n :=
  nodeFilterF_pure n.depthN n kw h

/-! ## Structural-equality reasoning -/

theorem primEq_refl (p : Prim) : primEq p p = true := by
  cases p <;> simp [primEq]

theorem fieldSubB_of_forall {fs gs : List Field}
    (h : ∀ f ∈ fs, ∃ g ∈ gs, fieldEqB f g = true) : fieldSubB fs gs = true := by
  induction fs with
  | nil => rfl
  | cons f rest ih =>
    simp only [fieldSubB, Bool.and_eq_true]
    refine ⟨?_, ih (fun x hx => h x (List.mem_cons_of_mem _ hx))⟩
    obtain ⟨g, hg, he⟩ := h f (List.mem_cons_self _ _)
    exact List.any_eq_true.mpr ⟨g, hg, he⟩

theorem fieldMemRevB_of_exists {fs : List Field} {g : Field}
    (h : ∃ f ∈ fs, fieldEqB f g = true) : fieldMemRevB fs g = true := by
  induction fs with
  | nil => obtain ⟨f, hf, _⟩ := h; cases hf
  | cons f rest ih =>
    obtain ⟨x, hx, he⟩ := h
    simp only [fieldMemRevB, Bool.or_eq_true]
    rcases List.mem_cons.mp hx with rfl | hx
    · exact Or.inl he
    · exact Or.inr (ih ⟨x, hx, he⟩)

theorem nodeSubB_of_forall {ns ms : List Node}
    (h : ∀ n ∈ ns, ∃ m ∈ ms, nodeEqB n m = true) : nodeSubB ns ms = true := by
  induction ns with
  | nil => rfl
  | cons n rest ih =>
    simp only [nodeSubB, Bool.and_eq_true]
    refine ⟨?_, ih (fun x hx => h x (List.mem_cons_of_mem _ hx))⟩
    obtain ⟨m, hm, he⟩ := h n (List.mem_cons_self _ _)
    exact List.any_eq_true.mpr ⟨m, hm, he⟩

theorem nodeMemRevB_of_exists {ns : List Node} {m : Node}
    (h : ∃ n ∈ ns, nodeEqB n m = true) : nodeMemRevB ns m = true := by
  induction ns with
  | nil => obtain ⟨n, hn, _⟩ := h; cases hn
  | cons n rest ih =>
    obtain ⟨x, hx, he⟩ := h
    simp only [nodeMemRevB, Bool.or_eq_true]
    rcases List.mem_cons.mp hx with rfl | hx
    · exact Or.inl he
    · exact Or.inr (ih ⟨x, hx, he⟩)

mutual
theorem fieldEqB_refl (f : Field) : fieldEqB f f = true := by
  match f with
  | .valueF n v => simp [fieldEqB, primEq_refl]
  | .arrayF n es => simp [fieldEqB, fieldListEqB_refl es]
  | .nodeF n c => simp [fieldEqB, nodeEqB_refl c]
  | .datasetF n d =>
    simp only [fieldEqB, Bool.and_eq_true]
    refine ⟨by simp, ?_, ?_⟩
    · exact nodeSubB_of_forall (fun m hm => ⟨m, hm, nodesEqB_refl_mem d m hm⟩)
    · rw [List.all_eq_true]
      intro m hm
      exact nodeMemRevB_of_exists ⟨m, hm, nodesEqB_refl_mem d m hm⟩
termination_by sizeOf f

theorem fieldListEqB_refl (fs : List Field) : fieldListEqB fs fs = true := by
  match fs with
  | [] => rfl
  | f :: rest =>
    simp only [fieldListEqB, Bool.and_eq_true]
    exact ⟨fieldEqB_refl f, fieldListEqB_refl rest⟩
termination_by sizeOf fs

theorem fieldsEqB_refl_mem (fs : List Field) : ∀ f ∈ fs, fieldEqB f f = true := by
  match fs with
  | [] => intro f hf; cases hf
  | g :: rest =>
    intro f hf
    rcases List.mem_cons.mp hf with h | hf
    · rw [h]
      exact fieldEqB_refl g
    · exact fieldsEqB_refl_mem rest f hf
termination_by sizeOf fs

theorem nodeEqB_refl (n : Node) : nodeEqB n n = true := by
  match n with
  | .mk c fs =>
    simp only [nodeEqB, Bool.and_eq_true]
    refine ⟨?_, ?_⟩
    · exact fieldSubB_of_forall (fun f hf => ⟨f, hf, fieldsEqB_refl_mem fs f hf⟩)
    · rw [List.all_eq_true]
      intro g hg
      exact fieldMemRevB_of_exists ⟨g, hg, fieldsEqB_refl_mem fs g hg⟩
termination_by sizeOf n

theorem nodesEqB_refl_mem (ns : List Node) : ∀ m ∈ ns, nodeEqB m m = true := by
  match ns with
  | [] => intro m hm; cases hm
  | n :: rest =>
    intro m hm
    rcases List.mem_cons.mp hm with h | hm
    · rw [h]
      exact nodeEqB_refl n
    · exact nodesEqB_refl_mem rest m hm
termination_by sizeOf ns
end

/-! ## `distinct` / union membership facts -/

theorem distinctGo_mem_acc {x : Node} {xs : List Node} :
    ∀ {acc : List Node}, x ∈ acc → x ∈ distinctGo acc xs := by
  induction xs with
  | nil => intro acc h; exact h
  | cons m rest ih =>
    intro acc h
    simp only [distinctGo]
    split
    · exact ih h
    · exact ih (List.mem_append_left _ h)

theorem distinctGo_sub {xs : List Node} :
    ∀ {acc : List Node} {y : Node}, y ∈ distinctGo acc xs → y ∈ acc ∨ y ∈ xs := by
  induction xs with
  | nil => intro acc y h; exact Or.inl h
  | cons m rest ih =>
    intro acc y h
    simp only [distinctGo] at h
    split at h
    · rcases ih h with h | h
      · exact Or.inl h
      · exact Or.inr (List.mem_cons_of_mem _ h)
    · rcases ih h with h | h
      · rcases List.mem_append.mp h with h | h
        · exact Or.inl h
        · exact Or.inr (by
            rcases List.mem_singleton.mp h with rfl
            exact List.mem_cons_self _ _)
      · exact Or.inr (List.mem_cons_of_mem _ h)

theorem distinctGo_covers {xs : List Node} :
    ∀ {acc : List Node} {x : Node}, x ∈ xs →
      ∃ y ∈ distinctGo acc xs, nodeEqB x y = true := by
  induction xs with
  | nil => intro acc x h; cases h
  | cons m rest ih =>
    intro acc x h
    simp only [distinctGo]
    rcases List.mem_cons.mp h with rfl | h
    · split
      case isTrue hmem =>
        obtain ⟨y, hy, he⟩ := List.any_eq_true.mp hmem
        exact ⟨y, distinctGo_mem_acc hy, he⟩
      case isFalse hmem =>
        exact ⟨x, distinctGo_mem_acc (List.mem_append_right _ (List.mem_singleton.mpr rfl)),
          nodeEqB_refl x⟩
    · split
      · exact ih h
      · exact ih h

/-! ## Claim C4: `filter`/`exclude` partition -/

/-- Over cascade-free records, when every record either matches or raises
the no-match signal, `Dataset._filter` keeps the matching records, mutates
nothing, and propagates no exception. -/
theorem datasetFilter_valid (ns : List Node) (kw : Kwargs)
    (hco : nodesCascadeOff ns = true)
    (hval : ∀ n ∈ ns, (nodeFilter n kw).2 = none ∨
      (nodeFilter n kw).2 = some .objectNotFound) :
    datasetFilter ns kw =
      (ns, ns.filter (fun n => ((nodeFilter n kw).2).isNone), none) := by
  induction ns with
  | nil => rfl
  | cons m rest ih =>
    obtain ⟨hm, hrest⟩ := nodesCascadeOff_split hco
    have hpure : (nodeFilter m kw).1 = m := nodeFilter_pure m kw hm
    have htail := ih hrest (fun n hn => hval n (List.mem_cons_of_mem m hn))
    simp only [datasetFilter, datasetFilterWith] at htail ⊢
    rcases hval m (List.mem_cons_self m rest) with hv | hv
    · rw [hv, htail, hpure]
      simp [List.filter_cons, hv]
    · rw [hv, htail, hpure]
      simp [List.filter_cons, hv]

/-- Over cascade-free records, when every record either matches or raises
the no-match signal, `Dataset.exclude` keeps the non-matching records,
mutates nothing, and propagates no exception. -/
theorem datasetExclude_valid (ns : List Node) (kw : Kwargs)
    (hco : nodesCascadeOff ns = true) (hne : kw ≠ [])
    (hval : ∀ n ∈ ns, (nodeFilter n kw).2 = none ∨
      (nodeFilter n kw).2 = some .objectNotFound) :
    datasetExclude ns kw =
      (ns, ns.filter (fun n => !((nodeFilter n kw).2).isNone), none) := by
  have hkw : kw.isEmpty = false := by
    cases kw with
    | nil => exact absurd rfl hne
    | cons a l => rfl
  simp only [datasetExclude, hkw, Bool.false_eq_true, if_false]
  induction ns with
  | nil => rfl
  | cons m rest ih =>
    obtain ⟨hm, hrest⟩ := nodesCascadeOff_split hco
    have hpure : (nodeFilter m kw).1 = m := nodeFilter_pure m kw hm
    have htail := ih hrest (fun n hn => hval n (List.mem_cons_of_mem m hn))
    simp only [datasetExcludeGo] at htail ⊢
    rcases hval m (List.mem_cons_self m rest) with hv | hv
    · rw [hv, htail, hpure]
      simp [List.filter_cons, hv]
    · rw [hv, htail, hpure]
      simp [List.filter_cons, hv]

/-- `{"a": [{"b": 1}, {"b": 2}]}` with every cascade flag set. -/
def cascadeRecord : Node :=
  .mk true [.datasetF "a".data
    [.mk true [.valueF "b".data (.int 1)], .mk true [.valueF "b".data (.int 2)]]]

/-- **C4 (counterexample)** — On the one-record set holding `cascadeRecord`
(cascade activated) and the valid, satisfiable predicate set `a__b=1`,
`filter` succeeds (no exception, one surviving record) and `exclude` is
empty, yet `filter(P) ∪ exclude(P)` is not Record-Set-equal to the
original: the cascade mutation shrank the record's `a` collection, so the
claimed partition fails on cascaded sets. -/
theorem c4_cascade_breaks_partition :
    (datasetFilter [cascadeRecord] [("a__b".data, .prim (.int 1))]).2.2 = none ∧
    (datasetFilter [cascadeRecord] [("a__b".data, .prim (.int 1))]).2.1 ≠ [] ∧
    (datasetExclude [cascadeRecord] [("a__b".data, .prim (.int 1))]).2.2 = none ∧
    nodeSetEqB
      (datasetUnion (datasetFilter [cascadeRecord] [("a__b".data, .prim (.int 1))]).2.1
        (datasetExclude [cascadeRecord] [("a__b".data, .prim (.int 1))]).2.1)
      [cascadeRecord] = false :=
  ⟨rfl, fun h => List.noConfusion h, rfl, rfl⟩

/-- **C4 (amended)** — For every record set whose cascade flags are
(hereditarily) unset and every non-empty, satisfiable, valid predicate set
(valid: each record either matches or raises the internal no-match
signal), `filter(P)` and `exclude(P)` are disjoint and their union is
Record-Set-equal to the original set (order-independent, duplicates
collapsed by structural equality). -/
theorem c4_filter_exclude_partition (ns : List Node) (kw : Kwargs)
    (hco : nodesCascadeOff ns = true) (hne : kw ≠ [])
    (hsat : ∃ n ∈ ns, (nodeFilter n kw).2 = none)
    (hval : ∀ n ∈ ns, (nodeFilter n kw).2 = none ∨
      (nodeFilter n kw).2 = some .objectNotFound) :
    (∀ m, m ∈ (datasetFilter ns kw).2.1 → m ∉ (datasetExclude ns kw).2.1) ∧
    nodeSetEqB
      (datasetUnion (datasetFilter ns kw).2.1 (datasetExclude ns kw).2.1) ns = true := by
  have hfil := datasetFilter_valid ns kw hco hval
  have hexc := datasetExclude_valid ns kw hco hne hval
  rw [hfil, hexc]
  constructor
  · intro m hmf hme
    have h1 := (List.mem_filter.mp hmf).2
    have h2 := (List.mem_filter.mp hme).2
    rw [h1] at h2
    cases h2
  · have hsub1 : nodeSubB
        (datasetUnion (ns.filter (fun n => ((nodeFilter n kw).2).isNone))
          (ns.filter (fun n => !((nodeFilter n kw).2).isNone))) ns = true := by
      refine nodeSubB_of_forall (fun y hy => ?_)
      have : y ∈ ns := by
        rcases distinctGo_sub hy with h | h
        · rcases distinctGo_sub h with h | h
          · cases h
          · exact (List.mem_filter.mp h).1
        · exact (List.mem_filter.mp h).1
      exact ⟨y, this, nodeEqB_refl y⟩
    have hsub2 : nodeSubB ns
        (datasetUnion (ns.filter (fun n => ((nodeFilter n kw).2).isNone))
          (ns.filter (fun n => !((nodeFilter n kw).2).isNone))) = true := by
      refine nodeSubB_of_forall (fun x hx => ?_)
      rcases hval x hx with hv | hv
      · have hxf : x ∈ ns.filter (fun n => ((nodeFilter n kw).2).isNone) :=
          List.mem_filter.mpr ⟨hx, by rw [hv]; rfl⟩
        obtain ⟨y, hy, he⟩ :=
          @distinctGo_covers (ns.filter (fun n => ((nodeFilter n kw).2).isNone))
            ([] : List Node) x hxf
        exact ⟨y, distinctGo_mem_acc hy, he⟩
      · have hxe : x ∈ ns.filter (fun n => !((nodeFilter n kw).2).isNone) :=
          List.mem_filter.mpr ⟨hx, by rw [hv]; rfl⟩
        obtain ⟨y, hy, he⟩ :=
          @distinctGo_covers (ns.filter (fun n => !((nodeFilter n kw).2).isNone))
            (distinctNodes (ns.filter (fun n => ((nodeFilter n kw).2).isNone))) x hxe
        exact ⟨y, hy, he⟩
    simp only [nodeSetEqB, Bool.and_eq_true]
    exact ⟨hsub1, hsub2⟩

/-- **C4 (witness)** — The partition at the concrete set
`[{"a": 1}, {"a": 2}]` with the predicate `a=1` (the first record matches,
the second raises the no-match signal). -/
theorem c4_filter_exclude_partition_witness :
    (∀ m, m ∈ (datasetFilter [.mk false [.valueF "a".data (.int 1)],
        .mk false [.valueF "a".data (.int 2)]] [("a".data, .prim (.int 1))]).2.1 →
      m ∉ (datasetExclude [.mk false [.valueF "a".data (.int 1)],
        .mk false [.valueF "a".data (.int 2)]] [("a".data, .prim (.int 1))]).2.1) ∧
    nodeSetEqB
      (datasetUnion
        (datasetFilter [.mk false [.valueF "a".data (.int 1)],
          .mk false [.valueF "a".data (.int 2)]] [("a".data, .prim (.int 1))]).2.1
        (datasetExclude [.mk false [.valueF "a".data (.int 1)],
          .mk false [.valueF "a".data (.int 2)]] [("a".data, .prim (.int 1))]).2.1)
      [.mk false [.valueF "a".data (.int 1)], .mk false [.valueF "a".data (.int 2)]] =
      true :=
  c4_filter_exclude_partition _ _ rfl (fun h => List.noConfusion h)
    ⟨.mk false [.valueF "a".data (.int 1)], List.mem_cons_self _ _, rfl⟩
    (fun n hn => by
      rcases List.mem_cons.mp hn with h | hn
      · rw [h]; left; rfl
      · rcases List.mem_cons.mp hn with h | hn
        · rw [h]; right; rfl
        · cases hn)

/-! ## Recursion-budget irrelevance -/

theorem fieldsDepth_mem {fs : List Field} {f : Field} (h : f ∈ fs) :
    f.depthF ≤ fieldsDepth fs := by
  induction fs with
  | nil => cases h
  | cons g rest ih =>
    rcases List.mem_cons.mp h with rfl | h
    · simp only [fieldsDepth]
      exact Nat.le_max_left _ _
    · simp only [fieldsDepth]
      exact Nat.le_trans (ih h) (Nat.le_max_right _ _)

theorem nodesDepth_mem {ns : List Node} {m : Node} (h : m ∈ ns) :
    m.depthN ≤ nodesDepth ns := by
  induction ns with
  | nil => cases h
  | cons x rest ih =>
    rcases List.mem_cons.mp h with rfl | h
    · simp only [nodesDepth]
      exact Nat.le_max_left _ _
    · simp only [nodesDepth]
      exact Nat.le_trans (ih h) (Nat.le_max_right _ _)

theorem getField_depthF {n : Node} {p : Str} {f : Field}
    (h : getField n p = some f) : f.depthF < n.depthN := by
  cases n with
  | mk c fs =>
    have hm : f ∈ fs := List.mem_of_find?_eq_some h
    have := fieldsDepth_mem hm
    simp only [Node.depthN]
    omega

theorem getField_nodeF_depth {n : Node} {p : Str} {name : Str} {child : Node}
    (h : getField n p = some (.nodeF name child)) : child.depthN < n.depthN := by
  have := getField_depthF h
  simpa [Field.depthF] using this

theorem getField_datasetF_depth {n : Node} {p : Str} {name : Str} {ds : List Node}
    {m : Node} (h : getField n p = some (.datasetF name ds)) (hm : m ∈ ds) :
    m.depthN < n.depthN := by
  have h1 := getField_depthF h
  simp only [Field.depthF] at h1
  exact Nat.lt_of_le_of_lt (nodesDepth_mem hm) h1

theorem datasetFilterWith_congr
    {recN recN' : Node → Kwargs → Node × Option FErr}
    {ns : List Node} {kw : Kwargs}
    (h : ∀ m ∈ ns, recN m kw = recN' m kw) :
    datasetFilterWith recN ns kw = datasetFilterWith recN' ns kw := by
  induction ns with
  | nil => rfl
  | cons m rest ih =>
    simp only [datasetFilterWith]
    rw [h m (List.mem_cons_self _ _), ih (fun x hx => h x (List.mem_cons_of_mem _ hx))]

theorem processGroupsWith_congr
    {recN recN' : Node → Kwargs → Node × Option FErr}
    {recD recD' : List Node → Kwargs → List Node × List Node × Option FErr}
    {orig : Node}
    (hN : ∀ p name child sub, getField orig p = some (.nodeF name child) →
      recN child sub = recN' child sub)
    (hD : ∀ p name ds sub, getField orig p = some (.datasetF name ds) →
      recD ds sub = recD' ds sub) :
    ∀ (gs : Groups) (acc : Node),
      processGroupsWith recN recD orig acc gs =
      processGroupsWith recN' recD' orig acc gs := by
  intro gs
  induction gs with
  | nil => intro acc; rfl
  | cons g rest ih =>
    intro acc
    obtain ⟨parent, sub⟩ := g
    simp only [processGroupsWith]
    split
    · rename_i name child heq
      rw [hN parent name child sub heq, ih]
    · rename_i name ns heq
      rw [hD parent name ns sub heq, ih, ih]
    · rfl
    · rfl

/-- Any budget at least the record's depth computes the same result as the
wrapper: the budget is irrelevant once sufficient. -/
theorem nodeFilterF_congr (fuel : Nat) :
    ∀ (n : Node) (kw : Kwargs), n.depthN ≤ fuel →
      nodeFilterF fuel n kw = nodeFilter n kw := by
  induction fuel using Nat.strong_induction_on with
  | _ fuel ih =>
    intro n kw hle
    have hpos := depthN_pos n
    obtain ⟨f, rfl⟩ : ∃ f, fuel = f + 1 := by
      cases fuel with
      | zero => omega
      | succ f => exact ⟨f, rfl⟩
    obtain ⟨d, hd⟩ : ∃ d, n.depthN = d + 1 := by
      cases n with
      | mk c fs => exact ⟨fieldsDepth fs, rfl⟩
    have hdf : d ≤ f := by omega
    show nodeFilterF (f + 1) n kw = nodeFilterF n.depthN n kw
    rw [hd]
    simp only [nodeFilterF]
    have hgroups : ∀ (current : List Filter) (gs : Groups),
        processGroupsWith (nodeFilterF f) (datasetFilterWith (nodeFilterF f)) n n gs =
        processGroupsWith (nodeFilterF d) (datasetFilterWith (nodeFilterF d)) n n gs := by
      intro current gs
      refine processGroupsWith_congr ?_ ?_ gs n
      · intro p name child sub heq
        have hc : child.depthN < n.depthN := getField_nodeF_depth heq
        have h1 : nodeFilterF f child sub = nodeFilter child sub :=
          ih f (by omega) child sub (by omega)
        have h2 : nodeFilterF d child sub = nodeFilter child sub :=
          ih d (by omega) child sub (by omega)
        rw [h1, h2]
      · intro p name ds sub heq
        refine datasetFilterWith_congr (fun m hm => ?_)
        have hc : m.depthN < n.depthN := getField_datasetF_depth heq hm
        have h1 : nodeFilterF f m sub = nodeFilter m sub :=
          ih f (by omega) m sub (by omega)
        have h2 : nodeFilterF d m sub = nodeFilter m sub :=
          ih d (by omega) m sub (by omega)
        rw [h1, h2]
    repeat' split
    all_goals first
      | rfl
      | (exact hgroups [] _)

/-! ## The forwarded-group keys are pairwise distinct -/

theorem upsertGroup_keys_mem {gs : Groups} {p k : Str} {v : FilterVal} {x : Str}
    (h : x ∈ (upsertGroup gs p k v).map Prod.fst) :
    x ∈ gs.map Prod.fst ∨ x = p := by
  induction gs with
  | nil =>
    simp only [upsertGroup, List.map_cons, List.map_nil] at h
    rcases List.mem_singleton.mp h with rfl
    exact Or.inr rfl
  | cons g rest ih =>
    obtain ⟨q, kvs⟩ := g
    simp only [upsertGroup] at h
    split at h
    · simp only [List.map_cons] at h ⊢
      exact Or.inl h
    · simp only [List.map_cons] at h ⊢
      rcases List.mem_cons.mp h with rfl | h
      · exact Or.inl (List.mem_cons_self _ _)
      · rcases ih h with h | h
        · exact Or.inl (List.mem_cons_of_mem _ h)
        · exact Or.inr h

theorem upsertGroup_nodup {gs : Groups} {p k : Str} {v : FilterVal}
    (h : (gs.map Prod.fst).Nodup) :
    ((upsertGroup gs p k v).map Prod.fst).Nodup := by
  induction gs with
  | nil =>
    simp only [upsertGroup, List.map_cons, List.map_nil]
    exact List.nodup_singleton p
  | cons g rest ih =>
    obtain ⟨q, kvs⟩ := g
    simp only [upsertGroup]
    split
    · simp only [List.map_cons] at h ⊢
      exact h
    · rename_i hqp
      simp only [List.map_cons, List.nodup_cons] at h ⊢
      refine ⟨?_, ih h.2⟩
      intro hmem
      rcases upsertGroup_keys_mem hmem with hmem | hmem
      · exact h.1 hmem
      · rw [hmem] at hqp
        simp at hqp

theorem parserGo_nodup (filters : List Str) :
    ∀ (kwargs : Kwargs) (cur cur' : List Filter) (nxt gs : Groups),
      (nxt.map Prod.fst).Nodup →
      parserGo filters kwargs cur nxt = some (cur', gs) →
      (gs.map Prod.fst).Nodup := by
  intro kwargs
  induction kwargs with
  | nil =>
    intro cur cur' nxt gs hnd h
    simp only [parserGo] at h
    cases h
    exact hnd
  | cons kv rest ih =>
    intro cur cur' nxt gs hnd h
    obtain ⟨param, value⟩ := kv
    simp only [parserGo] at h
    cases hm : getMatchFilter filters param with
    | none =>
      simp only [hm] at h
      exact Option.noConfusion h
    | some filt =>
      simp only [hm] at h
      split at h
      · exact ih _ _ _ _ hnd h
      · exact ih _ _ _ _ (upsertGroup_nodup hnd) h

theorem parserFilters_nodup {n : Node} {kw : Kwargs} {cur : List Filter}
    {gs : Groups} (h : parserFilters n kw = some (cur, gs)) :
    (gs.map Prod.fst).Nodup :=
  parserGo_nodup (getFilters n) kw [] cur [] gs (by simp) h

/-! ## `getField` after a field replacement -/

theorem getField_isSome_iff {n : Node} {p : Str} :
    (getField n p).isSome ↔ p ∈ fieldNames n := by
  unfold getField fieldNames
  rw [List.find?_isSome]
  constructor
  · rintro ⟨f, hf, hp⟩
    exact List.mem_map.mpr ⟨f, hf, eq_of_beq hp⟩
  · rintro hm
    obtain ⟨f, hf, hp⟩ := List.mem_map.mp hm
    exact ⟨f, hf, by simp [hp]⟩

theorem getField_set_self {acc : Node} {p : Str} {new : Field}
    (hnew : new.getName = p) (hsome : (getField acc p).isSome) :
    getField (setFieldValue acc p new) p = some new := by
  cases acc with
  | mk c fs =>
    simp only [getField, setFieldValue, Node.fields] at hsome ⊢
    induction fs with
    | nil => simp [List.find?] at hsome
    | cons g rest ih =>
      simp only [setFieldList]
      cases hgp : (g.getName == p) with
      | true =>
        simp only [if_true]
        rw [List.find?_cons]
        simp [hnew]
      | false =>
        simp only [Bool.false_eq_true, if_false]
        rw [List.find?_cons, hgp]
        rw [List.find?_cons] at hsome
        rw [hgp] at hsome
        exact ih hsome

theorem getField_set_other {acc : Node} {p q : Str} {new : Field}
    (hnew : new.getName = p) (hne : q ≠ p) :
    getField (setFieldValue acc p new) q = getField acc q := by
  cases acc with
  | mk c fs =>
    simp only [getField, setFieldValue, Node.fields]
    induction fs with
    | nil => rfl
    | cons g rest ih =>
      simp only [setFieldList]
      cases hgp : (g.getName == p) with
      | true =>
        simp only [if_true]
        rw [List.find?_cons, List.find?_cons]
        have h1 : (new.getName == q) = false := by
          rw [hnew]
          exact beq_false_of_ne (fun h => hne h.symm)
        have h2 : (g.getName == q) = false := by
          rw [eq_of_beq hgp]
          exact beq_false_of_ne (fun h => hne h.symm)
        rw [h1, h2]
      | false =>
        simp only [Bool.false_eq_true, if_false]
        rw [List.find?_cons, List.find?_cons]
        cases hgq : (g.getName == q) with
        | true => rfl
        | false => exact ih

/-- Groups whose keys avoid `q` never touch the field named `q`. -/
theorem processGroupsWith_frame
    {recN : Node → Kwargs → Node × Option FErr}
    {recD : List Node → Kwargs → List Node × List Node × Option FErr}
    {orig : Node} {q : Str} :
    ∀ (gs : Groups) (acc : Node), q ∉ gs.map Prod.fst →
      getField (processGroupsWith recN recD orig acc gs).1 q = getField acc q := by
  intro gs
  induction gs with
  | nil => intro acc _; rfl
  | cons g rest ih =>
    intro acc hq
    obtain ⟨parent, sub⟩ := g
    simp only [List.map_cons, List.mem_cons] at hq
    push_neg at hq
    obtain ⟨hqp, hqrest⟩ := hq
    simp only [processGroupsWith]
    split
    · rename_i name child heq
      have hname : (Field.nodeF name ((recN child sub).1)).getName = parent := by
        simpa [Field.getName] using getField_getName heq
      split
      · exact getField_set_other hname hqp
      · rw [ih _ hqrest]
        exact getField_set_other hname hqp
    · rename_i name ns heq
      have h1 : (Field.datasetF name ((recD ns sub).1)).getName = parent := by
        simpa [Field.getName] using getField_getName heq
      have h2 : (Field.datasetF name ((recD ns sub).2.1)).getName = parent := by
        simpa [Field.getName] using getField_getName heq
      split
      · exact getField_set_other h1 hqp
      · split
        · exact getField_set_other h1 hqp
        · split
          · rw [ih _ hqrest]
            exact getField_set_other h2 hqp
          · rw [ih _ hqrest]
            exact getField_set_other h1 hqp
    · rfl
    · rfl

/-- When the `next_filters` loop succeeds, every group's field holds the
group's filtered result: for a nested record the recursive filter's
post-state, for a nested collection the surviving records when the owner
cascades and the (in-place updated) full node list otherwise; and a
collection group's surviving list is non-empty. -/
theorem processGroupsWith_success
    {recN : Node → Kwargs → Node × Option FErr}
    {recD : List Node → Kwargs → List Node × List Node × Option FErr}
    {orig : Node} {p : Str} {sub : Kwargs} :
    ∀ (gs : Groups) (acc : Node), (p, sub) ∈ gs →
      (gs.map Prod.fst).Nodup →
      fieldNames acc = fieldNames orig →
      (processGroupsWith recN recD orig acc gs).2 = none →
      (∀ name child, getField orig p = some (.nodeF name child) →
        getField (processGroupsWith recN recD orig acc gs).1 p =
          some (.nodeF name ((recN child sub).1))) ∧
      (∀ name ds, getField orig p = some (.datasetF name ds) →
        (recD ds sub).2.1 ≠ [] ∧
        getField (processGroupsWith recN recD orig acc gs).1 p =
          some (.datasetF name
            (if orig.onCascade then (recD ds sub).2.1 else (recD ds sub).1))) := by
  intro gs
  induction gs with
  | nil =>
    intro acc hmem
    cases hmem
  | cons g rest ih =>
    intro acc hmem hnd hnames hsucc
    obtain ⟨p₀, s₀⟩ := g
    simp only [List.map_cons, List.nodup_cons] at hnd
    simp only [processGroupsWith] at hsucc ⊢
    split at hsucc
    · rename_i name₀ child₀ heq₀
      have hname₀ : (Field.nodeF name₀ ((recN child₀ s₀).1)).getName = p₀ := by
        simpa [Field.getName] using getField_getName heq₀
      split at hsucc
      · exact absurd hsucc (by simp)
      · rename_i hres
        rcases List.mem_cons.mp hmem with hpe | hmem'
        · obtain ⟨rfl, rfl⟩ := Prod.mk.injEq .. ▸ hpe
          constructor
          · intro name child heqp
            rw [heq₀] at heqp
            obtain ⟨rfl, rfl⟩ :=
              (Field.nodeF.injEq ..).mp (Option.some.inj heqp).symm
            rw [processGroupsWith_frame rest _ hnd.1]
            refine getField_set_self hname₀ ?_
            rw [getField_isSome_iff, hnames, ← getField_isSome_iff, heq₀]
            rfl
          · intro name ds heqp
            rw [heq₀] at heqp
            exact absurd (Option.some.inj heqp) (fun hh => Field.noConfusion hh)
        · have hnames' : fieldNames (setFieldValue acc p₀
              (.nodeF name₀ ((recN child₀ s₀).1))) = fieldNames orig := by
            rw [setFieldValue_names _ _ _ hname₀, hnames]
          exact ih _ hmem' hnd.2 hnames' hsucc
    · rename_i name₀ ds₀ heq₀
      have hname₁ : (Field.datasetF name₀ ((recD ds₀ s₀).1)).getName = p₀ := by
        simpa [Field.getName] using getField_getName heq₀
      have hname₂ : (Field.datasetF name₀ ((recD ds₀ s₀).2.1)).getName = p₀ := by
        simpa [Field.getName] using getField_getName heq₀
      split at hsucc
      · exact absurd hsucc (by simp)
      · split at hsucc
        · exact absurd hsucc (by simp)
        · rename_i hne
          split at hsucc
          · rename_i hcas
            rcases List.mem_cons.mp hmem with hpe | hmem'
            · obtain ⟨rfl, rfl⟩ := Prod.mk.injEq .. ▸ hpe
              constructor
              · intro name child heqp
                rw [heq₀] at heqp
                exact absurd (Option.some.inj heqp) (fun hh => Field.noConfusion hh)
              · intro name ds heqp
                rw [heq₀] at heqp
                obtain ⟨rfl, rfl⟩ :=
                  (Field.datasetF.injEq ..).mp (Option.some.inj heqp).symm
                refine ⟨by simpa using hne, ?_⟩
                rw [if_neg hne, if_pos hcas, if_pos hcas]
                rw [processGroupsWith_frame rest _ hnd.1]
                refine getField_set_self hname₂ ?_
                rw [getField_isSome_iff, hnames, ← getField_isSome_iff, heq₀]
                rfl
            · have hnames' : fieldNames (setFieldValue acc p₀
                  (.datasetF name₀ ((recD ds₀ s₀).2.1))) = fieldNames orig := by
                rw [setFieldValue_names _ _ _ hname₂, hnames]
              have hres := ih _ hmem' hnd.2 hnames' hsucc
              rw [if_neg hne, if_pos hcas]
              exact hres
          · rename_i hcas
            rcases List.mem_cons.mp hmem with hpe | hmem'
            · obtain ⟨rfl, rfl⟩ := Prod.mk.injEq .. ▸ hpe
              constructor
              · intro name child heqp
                rw [heq₀] at heqp
                exact absurd (Option.some.inj heqp) (fun hh => Field.noConfusion hh)
              · intro name ds heqp
                rw [heq₀] at heqp
                obtain ⟨rfl, rfl⟩ :=
                  (Field.datasetF.injEq ..).mp (Option.some.inj heqp).symm
                refine ⟨by simpa using hne, ?_⟩
                rw [if_neg hne, if_neg hcas, if_neg hcas]
                rw [processGroupsWith_frame rest _ hnd.1]
                refine getField_set_self hname₁ ?_
                rw [getField_isSome_iff, hnames, ← getField_isSome_iff, heq₀]
                rfl
            · have hnames' : fieldNames (setFieldValue acc p₀
                  (.datasetF name₀ ((recD ds₀ s₀).1))) = fieldNames orig := by
                rw [setFieldValue_names _ _ _ hname₁, hnames]
              have hres := ih _ hmem' hnd.2 hnames' hsucc
              rw [if_neg hne, if_neg hcas]
              exact hres
    · exact absurd hsucc (by simp)
    · exact absurd hsucc (by simp)

/-! ## Claim C3: cascade semantics of forwarded filters -/

theorem isEmpty_false_of_ne {α : Type} {l : List α} (h : l ≠ []) :
    l.isEmpty = false := by
  cases l with
  | nil => exact absurd rfl h
  | cons a t => rfl

/-- On the success path, `Node.filter` is the group-processing loop run
with the fuel-free recursive filters. -/
theorem nodeFilter_success_decomp (n : Node) (kw : Kwargs) (cur : List Filter)
    (gs : Groups) (hkw : kw ≠ [])
    (hval : firstInvalidKey (getFilters n) (kw.map (fun kv => kv.1)) = none)
    (hpar : parserFilters n kw = some (cur, gs))
    (hcur : evalCurrents n cur = none) :
    nodeFilter n kw = processGroupsWith nodeFilter datasetFilter n n gs := by
  rw [nodeFilter_unfold, isEmpty_false_of_ne hkw]
  simp only [Bool.false_eq_true, if_false, hval, hpar, hcur]
  refine processGroupsWith_congr ?_ ?_ gs n
  · intro p name child sub heq
    exact nodeFilterF_congr _ child sub
      (by have := getField_nodeF_depth heq; omega)
  · intro p name ds sub heq
    show datasetFilterWith (nodeFilterF (n.depthN - 1)) ds sub =
      datasetFilterWith nodeFilter ds sub
    refine datasetFilterWith_congr (fun m hm => ?_)
    exact nodeFilterF_congr _ m sub
      (by have := getField_datasetF_depth heq hm; omega)

/-- When a filter call on a record succeeds, every forwarded group left its
field holding the group's filtered result, and every forwarded collection
kept at least one record. -/
theorem nodeFilter_success_groups (n : Node) (kw : Kwargs) (cur : List Filter)
    (gs : Groups) (p : Str) (sub : Kwargs)
    (hpar : parserFilters n kw = some (cur, gs))
    (hmem : (p, sub) ∈ gs)
    (hsucc : (nodeFilter n kw).2 = none) :
    (∀ name child, getField n p = some (.nodeF name child) →
      getField (nodeFilter n kw).1 p = some (.nodeF name ((nodeFilter child sub).1))) ∧
    (∀ name ds, getField n p = some (.datasetF name ds) →
      (datasetFilter ds sub).2.1 ≠ [] ∧
      getField (nodeFilter n kw).1 p = some (.datasetF name
        (if n.onCascade then (datasetFilter ds sub).2.1
         else (datasetFilter ds sub).1))) := by
  by_cases hkw : kw = []
  · subst hkw
    simp only [parserFilters, parserGo] at hpar
    obtain ⟨rfl, rfl⟩ := Prod.mk.injEq .. ▸ Option.some.inj hpar
    cases hmem
  · cases hv : firstInvalidKey (getFilters n) (kw.map (fun kv => kv.1)) with
    | some k =>
      exfalso
      rw [nodeFilter_unfold, isEmpty_false_of_ne hkw] at hsucc
      simp only [Bool.false_eq_true, if_false, hv] at hsucc
      exact Option.noConfusion hsucc
    | none =>
      cases hc : evalCurrents n cur with
      | some e =>
        exfalso
        rw [nodeFilter_unfold, isEmpty_false_of_ne hkw] at hsucc
        simp only [Bool.false_eq_true, if_false, hv, hpar, hc] at hsucc
        exact Option.noConfusion hsucc
      | none =>
        have hdec := nodeFilter_success_decomp n kw cur gs hkw hv hpar hc
        have hsucc' : (processGroupsWith nodeFilter datasetFilter n n gs).2 = none := by
          rw [← hdec]
          exact hsucc
        have hS := processGroupsWith_success gs n hmem (parserFilters_nodup hpar)
          rfl hsucc'
        rw [hdec]
        exact hS

/-- `{"a": {"b": [{"c": 1}, {"c": 2}]}}` where the owning record's cascade
flag is unset but the nested record's flags are set (reachable through the
public API by activating cascade on a related dataset only). -/
def mixedCascadeRecord : Node :=
  .mk false [.nodeF "a".data (.mk true [.datasetF "b".data
    [.mk true [.valueF "c".data (.int 1)], .mk true [.valueF "c".data (.int 2)]]])]

/-- **C3 (counterexample)** — A record whose own cascade flag is unset but
whose nested record carries a set flag: the filter `a__b__c=1` succeeds and
nevertheless changes the stored value of the field `a` (the nested record
replaced its own collection in place), refuting "for every Record whose
cascade flag is unset, a successful filter leaves the nested field's stored
value unchanged". -/
theorem c3_unset_flag_record_still_mutated :
    mixedCascadeRecord.onCascade = false ∧
    (nodeFilter mixedCascadeRecord [("a__b__c".data, .prim (.int 1))]).2 = none ∧
    nodeEqB (nodeFilter mixedCascadeRecord [("a__b__c".data, .prim (.int 1))]).1
      mixedCascadeRecord = false :=
  ⟨rfl, rfl, rfl⟩

/-- **C3 (amended)** — (a) For every record whose cascade flag is set, when
a filter call succeeds, each forwarded group's nested-record field ends up
holding the recursive filter's result and each forwarded record-collection
field ends up holding exactly the filtered (surviving) records; (b) for
every record whose cascade flag is unset on the record *and, hereditarily,
on every nested record*, a filter call leaves the record — in particular
every nested field's stored value — unchanged; (c) if a forwarded
record-collection group's filtered result is empty, the whole record fails
the filter. -/
theorem c3_cascade_replacement_semantics :
    (∀ (n : Node) (kw : Kwargs) (cur : List Filter) (gs : Groups)
        (p : Str) (sub : Kwargs),
      n.onCascade = true →
      parserFilters n kw = some (cur, gs) →
      (p, sub) ∈ gs →
      (nodeFilter n kw).2 = none →
      (∀ name child, getField n p = some (.nodeF name child) →
        getField (nodeFilter n kw).1 p =
          some (.nodeF name ((nodeFilter child sub).1))) ∧
      (∀ name ds, getField n p = some (.datasetF name ds) →
        getField (nodeFilter n kw).1 p =
          some (.datasetF name ((datasetFilter ds sub).2.1)))) ∧
    (∀ (n : Node) (kw : Kwargs), n.cascadeOff = true → (nodeFilter n kw).1 = n) ∧
    (∀ (n : Node) (kw : Kwargs) (cur : List Filter) (gs : Groups) (p : Str)
        (sub : Kwargs) (name : Str) (ds : List Node),
      parserFilters n kw = some (cur, gs) →
      (p, sub) ∈ gs →
      getField n p = some (.datasetF name ds) →
      (datasetFilter ds sub).2.1 = [] →
      (nodeFilter n kw).2 ≠ none) := by
  refine ⟨?_, nodeFilter_pure, ?_⟩
  · intro n kw cur gs p sub hflag hpar hmem hsucc
    have hS := nodeFilter_success_groups n kw cur gs p sub hpar hmem hsucc
    refine ⟨hS.1, ?_⟩
    intro name ds heq
    have := (hS.2 name ds heq).2
    rw [hflag, if_pos rfl] at this
    exact this
  · intro n kw cur gs p sub name ds hpar hmem heq hemp hsucc
    have hS := nodeFilter_success_groups n kw cur gs p sub hpar hmem hsucc
    exact (hS.2 name ds heq).1 hemp

/-- **C3 (witness)** — The three amended facts instantiated: on the
all-cascaded `{"a": [{"b":1},{"b":2}]}` record, `a__b=1` succeeds and
leaves `a` holding exactly the matching record; the cascade-free
`{"id":1,"tag":["x","y"]}` record is unchanged by a filter; and on the
cascade-free record `{"a": [{"b":1}]}` the unsatisfiable forwarded filter
`a__b=5` makes the whole record fail. -/
theorem c3_cascade_replacement_witness :
    getField (nodeFilter cascadeRecord [("a__b".data, .prim (.int 1))]).1 "a".data =
      some (.datasetF "a".data
        ((datasetFilter [.mk true [.valueF "b".data (.int 1)],
          .mk true [.valueF "b".data (.int 2)]] [("b".data, .prim (.int 1))]).2.1)) ∧
    (nodeFilter tagRecord1 [("tag__len".data, .prim (.int 2))]).1 = tagRecord1 ∧
    (nodeFilter (Node.mk false [.datasetF "a".data [.mk false [.valueF "b".data (.int 1)]]])
      [("a__b".data, .prim (.int 5))]).2 ≠ none := by
  refine ⟨?_, ?_, ?_⟩
  · exact ((c3_cascade_replacement_semantics.1 cascadeRecord
      [("a__b".data, .prim (.int 1))]
      [] [("a".data, [("b".data, .prim (.int 1))])] "a".data
      [("b".data, .prim (.int 1))] rfl rfl (List.mem_singleton.mpr rfl) rfl).2
      "a".data _ rfl)
  · exact c3_cascade_replacement_semantics.2.1 tagRecord1
      [("tag__len".data, .prim (.int 2))] rfl
  · exact c3_cascade_replacement_semantics.2.2
      (Node.mk false [.datasetF "a".data [.mk false [.valueF "b".data (.int 1)]]])
      [("a__b".data, .prim (.int 5))]
      [] [("a".data, [("b".data, .prim (.int 5))])] "a".data
      [("b".data, .prim (.int 5))] "a".data [.mk false [.valueF "b".data (.int 1)]]
      rfl (List.mem_singleton.mpr rfl) rfl rfl

/-! ## Claim C7: unregistered predicates and ill-typed filter values -/

/-- When the current-filters loop raises, the whole call fails with that
exception and the record is unchanged (the loop runs before the forwarded
groups, the only mutation site). -/
theorem nodeFilter_evalCurrents_err (n : Node) (kw : Kwargs) (cur : List Filter)
    (gs : Groups) (e : FErr) (hkw : kw ≠ [])
    (hval : firstInvalidKey (getFilters n) (kw.map (fun kv => kv.1)) = none)
    (hpar : parserFilters n kw = some (cur, gs))
    (hcur : evalCurrents n cur = some e) :
    nodeFilter n kw = (n, some e) := by
  rw [nodeFilter_unfold, isEmpty_false_of_ne hkw]
  simp only [Bool.false_eq_true, if_false, hval, hpar, hcur]

theorem datasetExcludeGo_pure (ns : List Node) (kw : Kwargs)
    (h : nodesCascadeOff ns = true) : (datasetExcludeGo ns kw).1 = ns := by
  induction ns with
  | nil => rfl
  | cons m rest ih =>
    obtain ⟨hm, hrest⟩ := nodesCascadeOff_split h
    simp only [datasetExcludeGo]
    split
    · simp only [nodeFilter_pure m kw hm, ih hrest]
    · simp only [nodeFilter_pure m kw hm, ih hrest]
    · simp only [nodeFilter_pure m kw hm]

/-- `{"a": [{"b":1},{"b":2}]}` (cascade on) next to `{"a": 5}`. -/
def mixedErrorSet : List Node :=
  [cascadeRecord, .mk false [.valueF "a".data (.int 5)]]

/-- **C7 (counterexample)** — On a dataset whose first (cascaded) record
matches `a__b=1` and whose second record resolves the same key to the
unregistered predicate `b`, the call aborts with the predicate-not-found
error *after* the first record was already mutated in place: the claim's
"without partially mutating the Record-Set" fails under cascade. -/
theorem c7_cascade_partial_mutation :
    (datasetFilter mixedErrorSet [("a__b".data, .prim (.int 1))]).2.2 =
      some (.lookupNotFound "b".data) ∧
    nodeSetEqB (datasetFilter mixedErrorSet [("a__b".data, .prim (.int 1))]).1
      mixedErrorSet = false :=
  ⟨rfl, rfl⟩

/-- **C7 (amended)** — A filter key that resolves to a field but names an
unregistered predicate makes the call fail with the predicate-not-found
error when its evaluation is reached; a predicate given a filter value
violating its declared accepted types (`isnull` given a non-boolean) fails
with the predicate type error; any such current-filter exception aborts the
record's call with the record unchanged; and when the records' cascade
flags are (hereditarily) unset, the aborted `filter`/`exclude` call leaves
every record of the Record-Set unchanged. -/
theorem c7_error_classification_and_no_mutation :
    (∀ (n : Node) (f : Filter) (rest : List Filter) (fld : Field),
      getField n f.fieldName = some fld →
      resolveLookup fld.kind f.lookupName = none →
      evalCurrents n (f :: rest) = some (.lookupNotFound f.lookupName)) ∧
    (∀ (fld : Field) (fv : FilterVal), (∀ b, fv ≠ .prim (.bool b)) →
      runLookup .isnull fld fv = .error .typeError) ∧
    (∀ (n : Node) (kw : Kwargs) (cur : List Filter) (gs : Groups) (e : FErr),
      kw ≠ [] →
      firstInvalidKey (getFilters n) (kw.map (fun kv => kv.1)) = none →
      parserFilters n kw = some (cur, gs) →
      evalCurrents n cur = some e →
      nodeFilter n kw = (n, some e)) ∧
    (∀ (ns : List Node) (kw : Kwargs), nodesCascadeOff ns = true →
      (datasetFilter ns kw).1 = ns ∧ (datasetExclude ns kw).1 = ns) := by
  refine ⟨?_, ?_, nodeFilter_evalCurrents_err, ?_⟩
  · intro n f rest fld hg hres
    simp only [evalCurrents, hg, hres]
  · intro fld fv h
    match fv with
    | .prim (.str s) => rfl
    | .prim (.int k) => rfl
    | .prim (.bool b) => exact absurd rfl (h b)
    | .prim .null => rfl
    | .list xs => rfl
  · intro ns kw h
    constructor
    · exact datasetFilterWith_pure nodeFilter nodeFilter_pure ns kw h
    · by_cases hkw : kw.isEmpty
      · simp [datasetExclude, hkw]
      · simp only [datasetExclude, hkw, Bool.false_eq_true, if_false]
        exact datasetExcludeGo_pure ns kw h

/-- **C7 (witness)** — The amended facts at concrete inputs: the residual
key `s` on `{"tag": 1}` yields the predicate-not-found error and an
unchanged record; `isnull` with the integer filter value `5` is a type
error; the cascade-free example dataset is unchanged by the call. -/
theorem c7_error_classification_witness :
    evalCurrents (Node.mk false [.valueF "tag".data (.int 1)])
      [⟨.prim (.int 1), "tag".data, "s".data⟩] =
      some (.lookupNotFound "s".data) ∧
    runLookup .isnull (.valueF "a".data (.int 1)) (.prim (.int 5)) =
      .error .typeError ∧
    nodeFilter (Node.mk false [.valueF "tag".data (.int 1)])
      [("tags".data, .prim (.int 1))] =
      (Node.mk false [.valueF "tag".data (.int 1)],
        some (.lookupNotFound "s".data)) ∧
    (datasetFilter [tagRecord1, tagRecord2] [("tag__len".data, .prim (.int 7))]).1 =
      [tagRecord1, tagRecord2] := by
  refine ⟨?_, ?_, ?_, ?_⟩
  · exact c7_error_classification_and_no_mutation.1
      (Node.mk false [.valueF "tag".data (.int 1)])
      ⟨.prim (.int 1), "tag".data, "s".data⟩ [] (.valueF "tag".data (.int 1)) rfl rfl
  · exact c7_error_classification_and_no_mutation.2.1 (.valueF "a".data (.int 1))
      (.prim (.int 5)) (fun b hb => by cases hb)
  · exact c7_error_classification_and_no_mutation.2.2.1
      (Node.mk false [.valueF "tag".data (.int 1)])
      [("tags".data, .prim (.int 1))]
      [⟨.prim (.int 1), "tag".data, "s".data⟩] []
      (.lookupNotFound "s".data) (fun h => List.noConfusion h) rfl rfl rfl
  · exact (c7_error_classification_and_no_mutation.2.2.2
      [tagRecord1, tagRecord2] [("tag__len".data, .prim (.int 7))] rfl).1

end Datalookup
